import Mathlib

/-!
Verification of the Kiro provider adapter.

Shallow embedding of the TypeScript sources:
  * src/event-parser.ts   (findJsonEnd, parseKiroEvent, parseKiroEvents)
  * the thinking tag extractor (ThinkingTagParser)
  * transform (normalizeMessages, truncate, buildHistory, ...)
  * history   (sanitizeHistory, injectSyntheticToolCalls, truncateHistory, ...)
  * stream    (the retry loop and the stream-read/assemble phase of streamKiro)

JavaScript strings are modelled as `List Char` (the code only manipulates
text at code-unit granularity and every input of interest is ASCII).
JavaScript numbers are modelled as `ℚ`; the numeric values exercised by the
code (percentages, context windows, the 0.7 reduction factor) are exact in
both denotations.  `JSON.parse` and `JSON.stringify` are platform builtins;
they are modelled below by an executable JSON value type with a
recursive-descent reader and a printer following the JSON grammar.
-/

abbrev Str := List Char

def s2l (s : String) : Str := s.data

/-- `(s.drop i).take pat.length = pat`: the pattern occurs in `s` at index `i`.
Mirrors what a successful `String.prototype.indexOf` hit at `i` means. -/
def matchAt (s pat : Str) (i : ℕ) : Bool :=
  (s.drop i).take pat.length == pat

/-- Linear scan underlying `indexOf(pat, start)`: try indices `i, i+1, ...`
while fuel lasts. -/
def indexOfGo (s pat : Str) : ℕ → ℕ → Option ℕ
  | 0, _ => none
  | fuel + 1, i => if matchAt s pat i then some i else indexOfGo s pat fuel (i + 1)

/-- JS `s.indexOf(pat, start)`, with `none` for the JS result `-1`. -/
def indexOfFrom (s pat : Str) (start : ℕ) : Option ℕ :=
  indexOfGo s pat (s.length + 1 - start) start

/-- JS `s.includes(sub)`. -/
def containsSub (s sub : Str) : Bool :=
  (indexOfFrom s sub 0).isSome

/-- The brace-depth scanner of `findJsonEnd` (src/event-parser.ts lines 10-37):
walks characters with an in-string toggle and an escape look-ahead, and
returns the index at which the brace depth first returns to zero. -/
def findJsonEndGo : Str → ℕ → ℤ → Bool → Bool → Option ℕ
  | [], _, _, _, _ => none
  | c :: rest, i, depth, inStr, esc =>
    if esc then findJsonEndGo rest (i + 1) depth inStr false
    else if c = '\\' then findJsonEndGo rest (i + 1) depth inStr true
    else if c = '"' then findJsonEndGo rest (i + 1) depth (!inStr) esc
    else if inStr then findJsonEndGo rest (i + 1) depth inStr esc
    else if c = '\x7b' then findJsonEndGo rest (i + 1) (depth + 1) inStr esc
    else if c = '\x7d' then
      if depth - 1 = 0 then some i else findJsonEndGo rest (i + 1) (depth - 1) inStr esc
    else findJsonEndGo rest (i + 1) depth inStr esc

/-- `findJsonEnd(text, start)` from src/event-parser.ts; `none` is JS `-1`. -/
def findJsonEnd (text : Str) (start : ℕ) : Option ℕ :=
  findJsonEndGo (text.drop start) start 0 false false

/-! ## JSON values (model of the platform `JSON.parse` / `JSON.stringify`) -/

inductive JsVal where
  | null
  | bool (b : Bool)
  | num (q : ℚ)
  | str (s : Str)
  | arr (xs : List JsVal)
  | obj (fields : List (Str × JsVal))

def jsonWs : List Char := [' ', '\n', '\t', '\r']

def skipWs (s : Str) : Str := s.dropWhile (fun c => jsonWs.contains c)

def isJsonDigit (c : Char) : Bool := '0' ≤ c ∧ c ≤ '9'

def digitVal (c : Char) : ℕ := c.toNat - '0'.toNat

def digitsToNat (ds : Str) : ℕ := ds.foldl (fun a c => a * 10 + digitVal c) 0

def hexDigitVal (c : Char) : Option ℕ :=
  if '0' ≤ c ∧ c ≤ '9' then some (c.toNat - '0'.toNat)
  else if 'a' ≤ c ∧ c ≤ 'f' then some (c.toNat - 'a'.toNat + 10)
  else if 'A' ≤ c ∧ c ≤ 'F' then some (c.toNat - 'A'.toNat + 10)
  else none

/-- Body of a JSON string literal, after the opening quote.  Returns the
decoded characters and the input following the closing quote. -/
def parseJsonStr : Str → Option (Str × Str)
  | [] => none
  | '"' :: rest => some ([], rest)
  | '\\' :: e :: rest =>
    if e = 'u' then
      match rest with
      | h1 :: h2 :: h3 :: h4 :: rest2 =>
        match hexDigitVal h1, hexDigitVal h2, hexDigitVal h3, hexDigitVal h4 with
        | some a, some b, some c, some d =>
          match parseJsonStr rest2 with
          | some (tail, after) => some (Char.ofNat (((a * 16 + b) * 16 + c) * 16 + d) :: tail, after)
          | none => none
        | _, _, _, _ => none
      | _ => none
    else
      match
        (if e = '"' then some '"'
         else if e = '\\' then some '\\'
         else if e = '/' then some '/'
         else if e = 'b' then some '\x08'
         else if e = 'f' then some '\x0c'
         else if e = 'n' then some '\n'
         else if e = 'r' then some '\x0d'
         else if e = 't' then some '\t'
         else none) with
      | some d =>
        match parseJsonStr rest with
        | some (tail, after) => some (d :: tail, after)
        | none => none
      | none => none
  | c :: rest =>
    if c.toNat < 0x20 then none
    else
      match parseJsonStr rest with
      | some (tail, after) => some (c :: tail, after)
      | none => none

/-- JSON number literal: `-? (0 | [1-9][0-9]*) (. [0-9]+)? ([eE][+-]?[0-9]+)?`. -/
def parseJsonNum (s : Str) : Option (ℚ × Str) :=
  let (neg, s1) := match s with
    | '-' :: rest => (true, rest)
    | _ => (false, s)
  let ip := s1.takeWhile isJsonDigit
  let s2 := s1.dropWhile isJsonDigit
  if ip = [] then none
  else if ip.length > 1 ∧ ip.headI = '0' then none
  else
    let intVal : ℚ := (digitsToNat ip : ℚ)
    let (fracVal, s3) := match s2 with
      | '.' :: rest =>
        let fd := rest.takeWhile isJsonDigit
        let rest2 := rest.dropWhile isJsonDigit
        if fd = [] then (none, s2)
        else (some ((digitsToNat fd : ℚ) / ((10 : ℚ) ^ fd.length)), rest2)
      | _ => (some 0, s2)
    match fracVal with
    | none => none
    | some fv =>
      let base : ℚ := intVal + fv
      let expVal : Option Str := match s3 with
        | 'e' :: rest => some rest
        | 'E' :: rest => some rest
        | _ => none
      match expVal with
      | none => some ((if neg then -base else base), s3)
      | some rest =>
        let (eneg, r1) := match rest with
          | '-' :: r => (true, r)
          | '+' :: r => (false, r)
          | _ => (false, rest)
        let ed := r1.takeWhile isJsonDigit
        let r2 := r1.dropWhile isJsonDigit
        if ed = [] then none
        else
          let e : ℤ := if eneg then -(digitsToNat ed : ℤ) else (digitsToNat ed : ℤ)
          some ((if neg then -base else base) * (10 : ℚ) ^ e, r2)

mutual

/-- Recursive-descent JSON value reader (model of `JSON.parse`), fueled. -/
def parseJsonVal : ℕ → Str → Option (JsVal × Str)
  | 0, _ => none
  | fuel + 1, s =>
    match skipWs s with
    | [] => none
    | '\x7b' :: rest =>
      (match skipWs rest with
       | '\x7d' :: rest2 => some (JsVal.obj [], rest2)
       | _ => match parseJsonFields fuel rest with
              | some (fs, after) => some (JsVal.obj fs, after)
              | none => none)
    | '[' :: rest =>
      (match skipWs rest with
       | ']' :: rest2 => some (JsVal.arr [], rest2)
       | _ => match parseJsonItems fuel rest with
              | some (xs, after) => some (JsVal.arr xs, after)
              | none => none)
    | '"' :: rest =>
      (match parseJsonStr rest with
       | some (cs, after) => some (JsVal.str cs, after)
       | none => none)
    | 't' :: 'r' :: 'u' :: 'e' :: rest => some (JsVal.bool true, rest)
    | 'f' :: 'a' :: 'l' :: 's' :: 'e' :: rest => some (JsVal.bool false, rest)
    | 'n' :: 'u' :: 'l' :: 'l' :: rest => some (JsVal.null, rest)
    | s1 =>
      (match parseJsonNum s1 with
       | some (q, after) => some (JsVal.num q, after)
       | none => none)

/-- One or more `"key": value` members, then the closing brace. -/
def parseJsonFields : ℕ → Str → Option (List (Str × JsVal) × Str)
  | 0, _ => none
  | fuel + 1, s =>
    match skipWs s with
    | '"' :: rest =>
      (match parseJsonStr rest with
       | some (key, after) =>
         (match skipWs after with
          | ':' :: rest2 =>
            (match parseJsonVal fuel rest2 with
             | some (v, after2) =>
               (match skipWs after2 with
                | ',' :: rest3 =>
                  (match parseJsonFields fuel rest3 with
                   | some (fs, after3) => some ((key, v) :: fs, after3)
                   | none => none)
                | '\x7d' :: rest3 => some ([(key, v)], rest3)
                | _ => none)
             | none => none)
          | _ => none)
       | none => none)
    | _ => none

/-- One or more array items, then the closing bracket. -/
def parseJsonItems : ℕ → Str → Option (List JsVal × Str)
  | 0, _ => none
  | fuel + 1, s =>
    match parseJsonVal fuel s with
    | some (v, after) =>
      (match skipWs after with
       | ',' :: rest => (match parseJsonItems fuel rest with
                         | some (xs, after2) => some (v :: xs, after2)
                         | none => none)
       | ']' :: rest => some ([v], rest)
       | _ => none)
    | none => none

end

/-- `JSON.parse` model: parse one value and require only whitespace after it;
`none` models a thrown `SyntaxError`. -/
def jsonParse (s : Str) : Option JsVal :=
  match parseJsonVal (s.length + 1) s with
  | some (v, rest) => if skipWs rest = [] then some v else none
  | none => none

/-- Property lookup on a parsed JSON value (JS `parsed.key`); on a duplicate
key `JSON.parse` keeps the last occurrence, hence the left fold. -/
def getField (v : JsVal) (key : Str) : Option JsVal :=
  match v with
  | JsVal.obj fields => fields.foldl (fun acc f => if f.1 = key then some f.2 else acc) none
  | _ => none

/-- JS truthiness of a JSON-representable value. -/
def jsTruthy : JsVal → Bool
  | JsVal.null => false
  | JsVal.bool b => b
  | JsVal.num q => q ≠ 0
  | JsVal.str s => s ≠ []
  | JsVal.arr _ => true
  | JsVal.obj _ => true

def fieldTruthy (v : JsVal) (key : Str) : Bool :=
  match getField v key with
  | some x => jsTruthy x
  | none => false

def natDigits (n : ℕ) : Str := Nat.toDigits 10 n

/-- Decimal rendering of an integer JS number (all numbers serialized or
coerced by this code base are integers; a non-integral value is rendered
with an explicit marker and never arises in the verified scenarios). -/
def numRender (q : ℚ) : Str :=
  if q.den = 1 then
    (if q.num < 0 then '-' :: natDigits q.num.natAbs else natDigits q.num.natAbs)
  else '?' :: natDigits q.num.natAbs

def hexDigitChar (n : ℕ) : Char :=
  if n < 10 then Char.ofNat ('0'.toNat + n) else Char.ofNat ('a'.toNat + (n - 10))

/-- `JSON.stringify` escaping of one character inside a string literal. -/
def jsonEscapeChar (c : Char) : Str :=
  if c = '"' then ['\\', '"']
  else if c = '\\' then ['\\', '\\']
  else if c = '\x08' then ['\\', 'b']
  else if c = '\x0c' then ['\\', 'f']
  else if c = '\n' then ['\\', 'n']
  else if c = '\x0d' then ['\\', 'r']
  else if c = '\t' then ['\\', 't']
  else if c.toNat < 0x20 then
    ['\\', 'u', '0', '0', hexDigitChar (c.toNat / 16), hexDigitChar (c.toNat % 16)]
  else [c]

def jsonEscape (s : Str) : Str := s.foldr (fun c acc => jsonEscapeChar c ++ acc) []

def jsonQuote (s : Str) : Str := '"' :: jsonEscape s ++ ['"']

def commaJoin (xs : List Str) : Str :=
  match xs with
  | [] => []
  | x :: rest => x ++ (rest.foldr (fun y acc => ',' :: y ++ acc) [])

mutual

/-- `JSON.stringify` model for a JSON value. -/
def jsonStringify : JsVal → Str
  | JsVal.null => s2l "null"
  | JsVal.bool true => s2l "true"
  | JsVal.bool false => s2l "false"
  | JsVal.num q => numRender q
  | JsVal.str s => jsonQuote s
  | JsVal.arr xs => '[' :: jsonStringifyItems xs ++ [']']
  | JsVal.obj fs => '\x7b' :: jsonStringifyFields fs ++ ['\x7d']

def jsonStringifyItems : List JsVal → Str
  | [] => []
  | [x] => jsonStringify x
  | x :: y :: rest => jsonStringify x ++ ',' :: jsonStringifyItems (y :: rest)

def jsonStringifyFields : List (Str × JsVal) → Str
  | [] => []
  | [f] => jsonQuote f.1 ++ ':' :: jsonStringify f.2
  | f :: g :: rest => jsonQuote f.1 ++ ':' :: jsonStringify f.2 ++ ',' :: jsonStringifyFields (g :: rest)

end

/-- JS string coercion of a JSON value, applied where the TypeScript casts a
parsed field to `string` and later concatenates it.  Every content value in
the verified scenarios is already a string. -/
def jsCoerceStr : JsVal → Str
  | JsVal.str s => s
  | JsVal.num q => numRender q
  | JsVal.bool true => s2l "true"
  | JsVal.bool false => s2l "false"
  | JsVal.null => s2l "null"
  | JsVal.arr _ => []
  | JsVal.obj _ => s2l "[object Object]"

def jsToNum : JsVal → ℚ
  | JsVal.num q => q
  | _ => 0

/-! ## Kiro stream events (src/event-parser.ts) -/

inductive KiroStreamEvent where
  | content (data : Str)
  | toolUse (name : Str) (toolUseId : Str) (input : Str) (stop : Bool)
  | toolUseInput (input : Str)
  | toolUseStop (stop : Bool)
  | contextUsage (pct : ℚ)
deriving DecidableEq

/-- `parseKiroEvent` (src/event-parser.ts lines 39-64): classify a parsed
object by field presence, in the source's fixed precedence order.  The
`stop` fields are casts used only in boolean positions downstream, so their
truthiness is stored. -/
def parseKiroEvent (v : JsVal) : Option KiroStreamEvent :=
  if (getField v (s2l "content")).isSome then
    some (KiroStreamEvent.content (jsCoerceStr ((getField v (s2l "content")).getD JsVal.null)))
  else if fieldTruthy v (s2l "name") ∧ fieldTruthy v (s2l "toolUseId") then
    let input : Str :=
      match getField v (s2l "input") with
      | some (JsVal.str s) => s
      | some x => if jsTruthy x then jsonStringify x else []
      | none => []
    some (KiroStreamEvent.toolUse
      (jsCoerceStr ((getField v (s2l "name")).getD JsVal.null))
      (jsCoerceStr ((getField v (s2l "toolUseId")).getD JsVal.null))
      input (fieldTruthy v (s2l "stop")))
  else if (getField v (s2l "input")).isSome ∧ ¬ fieldTruthy v (s2l "name") then
    some (KiroStreamEvent.toolUseInput
      (match getField v (s2l "input") with
       | some (JsVal.str s) => s
       | some x => jsonStringify x
       | none => []))
  else if (getField v (s2l "stop")).isSome ∧ (getField v (s2l "contextUsagePercentage")).isNone then
    some (KiroStreamEvent.toolUseStop (fieldTruthy v (s2l "stop")))
  else if (getField v (s2l "contextUsagePercentage")).isSome then
    some (KiroStreamEvent.contextUsage (jsToNum ((getField v (s2l "contextUsagePercentage")).getD JsVal.null)))
  else none

/-- The five fixed field-name anchors of `parseKiroEvents`. -/
def kiroPatterns : List Str :=
  [s2l "\x7b\"content\":", s2l "\x7b\"name\":", s2l "\x7b\"input\":",
   s2l "\x7b\"stop\":", s2l "\x7b\"contextUsagePercentage\":"]

def minOptStep (acc : Option ℕ) (x : ℕ) : Option ℕ :=
  match acc with
  | none => some x
  | some y => some (min y x)

def minList (l : List ℕ) : Option ℕ := l.foldl minOptStep none

/-- `Math.min` over the non-negative `indexOf` results of the five anchors. -/
def firstCandidate (s : Str) (searchStart : ℕ) : Option ℕ :=
  minList (kiroPatterns.filterMap (fun p => indexOfFrom s p searchStart))

structure KiroParseResult where
  events : List KiroStreamEvent
  remaining : Str
deriving DecidableEq

/-- `JSON.parse` then classify; `none` is either a parse failure (silently
skipped by the source) or an object matching no event shape. -/
def evtOf (o : Str) : Option KiroStreamEvent := (jsonParse o).bind parseKiroEvent

theorem indexOfGo_some_ge {s pat : Str} {fuel i j : ℕ}
    (h : indexOfGo s pat fuel i = some j) : i ≤ j := by
  induction fuel generalizing i with
  | zero => simp [indexOfGo] at h
  | succ n ih =>
    simp only [indexOfGo] at h
    split at h
    · exact le_of_eq (Option.some.inj h)
    · exact Nat.le_of_succ_le (ih h)

theorem minFold_ge {st : ℕ} :
    ∀ (l : List ℕ) (acc : Option ℕ) (m : ℕ), (∀ y, acc = some y → st ≤ y) →
      (∀ x ∈ l, st ≤ x) → l.foldl minOptStep acc = some m → st ≤ m := by
  intro l
  induction l with
  | nil => intro acc m hacc _ h; exact hacc m h
  | cons a t ih =>
    intro acc m hacc hall h
    simp only [List.foldl_cons] at h
    refine ih (minOptStep acc a) m ?_ (fun x hx => hall x (List.mem_cons_of_mem _ hx)) h
    intro y hy
    cases acc with
    | none =>
      simp only [minOptStep] at hy
      cases hy
      exact hall a (List.mem_cons_self _ _)
    | some z =>
      simp only [minOptStep] at hy
      cases hy
      exact le_min (hacc z rfl) (hall a (List.mem_cons_self _ _))

theorem minFold_acc_or_mem :
    ∀ (l : List ℕ) (acc : Option ℕ) (m : ℕ), l.foldl minOptStep acc = some m →
      acc = some m ∨ m ∈ l := by
  intro l
  induction l with
  | nil => intro acc m h; exact Or.inl h
  | cons a t ih =>
    intro acc m h
    simp only [List.foldl_cons] at h
    rcases ih (minOptStep acc a) m h with h2 | h2
    · cases acc with
      | none =>
        simp only [minOptStep] at h2
        exact Or.inr (by cases h2; exact List.mem_cons_self _ _)
      | some z =>
        simp only [minOptStep] at h2
        have hz := Option.some.inj h2
        rcases min_choice z a with hmin | hmin
        · exact Or.inl (by rw [← hz, hmin])
        · exact Or.inr (by rw [← hz, hmin]; exact List.mem_cons_self _ _)
    · exact Or.inr (List.mem_cons_of_mem _ h2)

theorem minFold_le :
    ∀ (l : List ℕ) (acc : Option ℕ) (m : ℕ), l.foldl minOptStep acc = some m →
      (∀ y, acc = some y → m ≤ y) ∧ (∀ x ∈ l, m ≤ x) := by
  intro l
  induction l with
  | nil =>
    intro acc m h
    exact ⟨fun y hy => le_of_eq (by rw [hy] at h; exact (Option.some.inj h).symm), by simp⟩
  | cons a t ih =>
    intro acc m h
    simp only [List.foldl_cons] at h
    obtain ⟨hacc, hall⟩ := ih (minOptStep acc a) m h
    constructor
    · intro y hy
      cases hy
      have := hacc (min y a) (by simp [minOptStep])
      exact le_trans this (min_le_left _ _)
    · intro x hx
      rcases List.mem_cons.mp hx with rfl | hx2
      · cases acc with
        | none => exact hacc x (by simp [minOptStep])
        | some z =>
          have := hacc (min z x) (by simp [minOptStep])
          exact le_trans this (min_le_right _ _)
      · exact hall x hx2

theorem minFold_some :
    ∀ (l : List ℕ) (y : ℕ), (l.foldl minOptStep (some y)).isSome = true := by
  intro l
  induction l with
  | nil => intro y; rfl
  | cons a t ih => intro y; simpa [minOptStep] using ih (min y a)

theorem minList_isSome {l : List ℕ} (h : l ≠ []) : (minList l).isSome = true := by
  cases l with
  | nil => exact absurd rfl h
  | cons a t => simpa [minList, minOptStep] using minFold_some t a

theorem firstCandidate_ge {s : Str} {st j : ℕ}
    (h : firstCandidate s st = some j) : st ≤ j := by
  refine minFold_ge _ _ j (by intro y hy; cases hy) ?_ h
  intro x hx
  rcases List.mem_filterMap.mp hx with ⟨p, _, hp⟩
  exact indexOfGo_some_ge hp

theorem findJsonEndGo_some_ge {l : Str} {i j : ℕ} {d : ℤ} {a b : Bool}
    (h : findJsonEndGo l i d a b = some j) : i ≤ j ∧ j < i + l.length := by
  induction l generalizing i d a b with
  | nil => simp [findJsonEndGo] at h
  | cons c rest ih =>
    simp only [findJsonEndGo] at h
    have bump : ∀ {d2 : ℤ} {a2 b2 : Bool}, findJsonEndGo rest (i + 1) d2 a2 b2 = some j →
        i ≤ j ∧ j < i + (c :: rest).length := by
      intro d2 a2 b2 hh
      have := ih hh
      simp only [List.length_cons]
      omega
    split at h
    · exact bump h
    · split at h
      · exact bump h
      · split at h
        · exact bump h
        · split at h
          · exact bump h
          · split at h
            · exact bump h
            · split at h
              · split at h
                · cases h; simp only [List.length_cons]; omega
                · exact bump h
              · exact bump h

/-- `parseKiroEvents` (src/event-parser.ts lines 66-97).  The loop advances
`searchStart` past each consumed object; the three loop exits encode the
source's `break`s together with the final remainder adjustment.  The loop
strictly increases `searchStart`, so with fuel exceeding the buffer length
the fuel never runs out; the fuel-0 branch is unreachable from
`parseKiroEvents`. -/
def parseKiroEventsGo (buffer : Str) : ℕ → ℕ → List KiroStreamEvent → KiroParseResult
  | 0, searchStart, events => ⟨events, buffer.drop searchStart⟩
  | fuel + 1, searchStart, events =>
    match firstCandidate buffer searchStart with
    | none =>
      ⟨events, if searchStart > 0 ∧ buffer ≠ [] then buffer.drop searchStart else buffer⟩
    | some jsonStart =>
      match findJsonEnd buffer jsonStart with
      | none => ⟨events, buffer.drop jsonStart⟩
      | some jsonEnd =>
        let events2 := match evtOf ((buffer.drop jsonStart).take (jsonEnd + 1 - jsonStart)) with
          | some e => events ++ [e]
          | none => events
        if jsonEnd + 1 ≥ buffer.length then ⟨events2, []⟩
        else parseKiroEventsGo buffer fuel (jsonEnd + 1) events2

def parseKiroEvents (buffer : Str) : KiroParseResult :=
  parseKiroEventsGo buffer (buffer.length + 1) 0 []

/-! ## Support lemmas about the scanning primitives -/

theorem matchAt_eq_true_iff {s p : Str} {i : ℕ} :
    matchAt s p i = true ↔ (s.drop i).take p.length = p := by
  simp [matchAt]

theorem matchAt_shift (pre t p : Str) (k : ℕ) :
    matchAt (pre ++ t) p (pre.length + k) = matchAt t p k := by
  unfold matchAt
  rw [List.drop_append_eq_append_drop]
  have h1 : pre.drop (pre.length + k) = [] := List.drop_eq_nil_of_le (by omega)
  have h2 : pre.length + k - pre.length = k := by omega
  rw [h1, h2, List.nil_append]

theorem matchAt_oob {s p : Str} {i : ℕ} (hp : p ≠ []) (h : s.length ≤ i) :
    matchAt s p i = false := by
  have h1 : s.drop i = [] := List.drop_eq_nil_of_le h
  simp only [matchAt, h1, List.take_nil]
  cases p with
  | nil => exact absurd rfl hp
  | cons a t => rfl

theorem matchAt_bound {s p : Str} {i : ℕ} (h : matchAt s p i = true) (hp : p ≠ []) :
    i + p.length ≤ s.length := by
  have h2 := matchAt_eq_true_iff.mp h
  have h3 : ((s.drop i).take p.length).length = p.length := by rw [h2]
  rw [List.length_take, List.length_drop] at h3
  rcases Nat.le_total i s.length with hle | hle
  · omega
  · exfalso
    have : s.drop i = [] := List.drop_eq_nil_of_le hle
    rw [this, List.take_nil] at h2
    exact hp h2.symm

theorem matchAt_append_right {o x p : Str} (h : matchAt o p 0 = true) (hp : p ≠ []) :
    matchAt (o ++ x) p 0 = true := by
  have hb := matchAt_bound h hp
  rw [matchAt_eq_true_iff] at h ⊢
  rw [List.drop_zero] at h ⊢
  rw [List.take_append_eq_append_take]
  have h0 : p.length - o.length = 0 := by omega
  rw [h0, List.take_zero, List.append_nil, h]

theorem indexOfGo_none_match {s pat : Str} {fuel i : ℕ}
    (h : indexOfGo s pat fuel i = none) :
    ∀ j, i ≤ j → j < i + fuel → matchAt s pat j = false := by
  induction fuel generalizing i with
  | zero => intro j h1 h2; omega
  | succ n ih =>
    intro j h1 h2
    simp only [indexOfGo] at h
    by_cases hm : matchAt s pat i = true
    · rw [if_pos hm] at h
      exact absurd h (by simp)
    · rw [if_neg hm] at h
      rcases Nat.eq_or_lt_of_le h1 with rfl | hlt
      · exact Bool.eq_false_iff.mpr hm
      · exact ih h j hlt (by omega)

theorem indexOfGo_of_no_match {s pat : Str} {fuel i : ℕ}
    (h : ∀ j, i ≤ j → j < i + fuel → matchAt s pat j = false) :
    indexOfGo s pat fuel i = none := by
  induction fuel generalizing i with
  | zero => rfl
  | succ n ih =>
    simp only [indexOfGo]
    rw [h i (le_refl i) (by omega)]
    simp only [Bool.false_eq_true, if_false]
    exact ih (fun j h1 h2 => h j (by omega) (by omega))

theorem indexOfGo_some_match {s pat : Str} {fuel i j : ℕ}
    (h : indexOfGo s pat fuel i = some j) : matchAt s pat j = true := by
  induction fuel generalizing i with
  | zero => simp [indexOfGo] at h
  | succ n ih =>
    simp only [indexOfGo] at h
    split at h
    · cases h; assumption
    · exact ih h

theorem indexOfFrom_none_match {s pat : Str} {st : ℕ} (hp : pat ≠ [])
    (h : indexOfFrom s pat st = none) : ∀ j, st ≤ j → matchAt s pat j = false := by
  intro j hj
  by_cases hj2 : j < st + (s.length + 1 - st)
  · exact indexOfGo_none_match h j hj hj2
  · exact matchAt_oob hp (by omega)

theorem indexOfFrom_of_no_match {s pat : Str} {st : ℕ}
    (h : ∀ j, st ≤ j → matchAt s pat j = false) : indexOfFrom s pat st = none :=
  indexOfGo_of_no_match (fun j h1 _ => h j h1)

theorem indexOfFrom_at {s pat : Str} {st : ℕ} (hm : matchAt s pat st = true)
    (hp : pat ≠ []) : indexOfFrom s pat st = some st := by
  have hb := matchAt_bound hm hp
  have hfuel : 0 < s.length + 1 - st := by
    have : pat.length ≠ 0 := fun h0 => hp (List.length_eq_zero.mp h0)
    omega
  unfold indexOfFrom
  cases hf : s.length + 1 - st with
  | zero => omega
  | succ n => simp [indexOfGo, hm]

theorem kiroPatterns_ne_nil : ∀ p ∈ kiroPatterns, p ≠ [] := by decide

theorem firstCandidate_none_match {s : Str} {st : ℕ}
    (h : firstCandidate s st = none) :
    ∀ p ∈ kiroPatterns, ∀ j, st ≤ j → matchAt s p j = false := by
  have hl : kiroPatterns.filterMap (fun p => indexOfFrom s p st) = [] := by
    by_contra hne
    have := minList_isSome hne
    rw [firstCandidate] at h
    rw [h] at this
    cases this
  intro p hp j hj
  have hnone : indexOfFrom s p st = none := by
    cases he : indexOfFrom s p st with
    | none => rfl
    | some x =>
      exfalso
      have : x ∈ kiroPatterns.filterMap (fun p => indexOfFrom s p st) :=
        List.mem_filterMap.mpr ⟨p, hp, he⟩
      rw [hl] at this
      cases this
  exact indexOfFrom_none_match (kiroPatterns_ne_nil p hp) hnone j hj

theorem firstCandidate_of_no_match {s : Str} {st : ℕ}
    (h : ∀ p ∈ kiroPatterns, ∀ j, st ≤ j → matchAt s p j = false) :
    firstCandidate s st = none := by
  have hl : kiroPatterns.filterMap (fun p => indexOfFrom s p st) = [] := by
    rw [List.filterMap_eq_nil_iff]
    intro p hp
    exact indexOfFrom_of_no_match (h p hp)
  rw [firstCandidate, hl]
  rfl

theorem firstCandidate_at {s : Str} {st : ℕ} {p : Str} (hp : p ∈ kiroPatterns)
    (hm : matchAt s p st = true) : firstCandidate s st = some st := by
  have hidx : indexOfFrom s p st = some st := indexOfFrom_at hm (kiroPatterns_ne_nil p hp)
  set L := kiroPatterns.filterMap (fun p => indexOfFrom s p st) with hL
  have hmem : st ∈ L := List.mem_filterMap.mpr ⟨p, hp, hidx⟩
  have hne : L ≠ [] := List.ne_nil_of_mem hmem
  obtain ⟨m, hm2⟩ := Option.isSome_iff_exists.mp (minList_isSome hne)
  have hge : st ≤ m := by
    refine minFold_ge L none m (by intro y hy; cases hy) ?_ hm2
    intro x hx
    rcases List.mem_filterMap.mp hx with ⟨q, _, hq⟩
    exact indexOfGo_some_ge hq
  have hle : m ≤ st := (minFold_le L none m hm2).2 st hmem
  rw [firstCandidate, ← hL, hm2]
  congr 1
  omega

theorem findJsonEndGo_shift (l : Str) :
    ∀ (k i : ℕ) (d : ℤ) (a b : Bool),
      findJsonEndGo l (k + i) d a b = (findJsonEndGo l k d a b).map (· + i) := by
  induction l with
  | nil => intro k i d a b; rfl
  | cons c rest ih =>
    intro k i d a b
    simp only [findJsonEndGo]
    have hrw : k + i + 1 = (k + 1) + i := by omega
    split_ifs with h1 h2 h3 h4 h5 h6 h7
    · rw [hrw]; exact ih (k + 1) i d a false
    · rw [hrw]; exact ih (k + 1) i d a true
    · rw [hrw]; exact ih (k + 1) i d (!a) b
    · rw [hrw]; exact ih (k + 1) i d a b
    · rw [hrw]; exact ih (k + 1) i (d + 1) a b
    · simp
    · rw [hrw]; exact ih (k + 1) i (d - 1) a b
    · rw [hrw]; exact ih (k + 1) i d a b

theorem findJsonEndGo_append {l1 : Str} (l2 : Str) :
    ∀ {i j : ℕ} {d : ℤ} {a b : Bool},
      findJsonEndGo l1 i d a b = some j → findJsonEndGo (l1 ++ l2) i d a b = some j := by
  induction l1 with
  | nil => intro i j d a b h; simp [findJsonEndGo] at h
  | cons c rest ih =>
    intro i j d a b h
    simp only [findJsonEndGo, List.cons_append] at h ⊢
    split_ifs at h ⊢ with h1 h2 h3 h4 h5 h6 h7
    all_goals first
      | exact ih h
      | exact h

theorem findJsonEndGo_take_none_of_first {l : Str} {J m : ℕ} {d : ℤ} {a b : Bool}
    (h : findJsonEndGo l 0 d a b = some J) (hm : m ≤ J) :
    findJsonEndGo (l.take m) 0 d a b = none := by
  cases he : findJsonEndGo (l.take m) 0 d a b with
  | none => rfl
  | some j =>
    exfalso
    have hb := findJsonEndGo_some_ge he
    have happ : findJsonEndGo (l.take m ++ l.drop m) 0 d a b = some j :=
      findJsonEndGo_append _ he
    rw [List.take_append_drop] at happ
    rw [h] at happ
    have hj := Option.some.inj happ
    have hlen : (l.take m).length ≤ m := by
      rw [List.length_take]; omega
    omega

theorem findJsonEndGo_take_none {l : Str} {d : ℤ} {a b : Bool}
    (h : findJsonEndGo l 0 d a b = none) (m : ℕ) :
    findJsonEndGo (l.take m) 0 d a b = none := by
  cases he : findJsonEndGo (l.take m) 0 d a b with
  | none => rfl
  | some j =>
    exfalso
    have happ : findJsonEndGo (l.take m ++ l.drop m) 0 d a b = some j :=
      findJsonEndGo_append _ he
    rw [List.take_append_drop, h] at happ
    cases happ

theorem findJsonEnd_shift_zero (t : Str) (n : ℕ) :
    findJsonEndGo t n 0 false false = (findJsonEndGo t 0 0 false false).map (· + n) := by
  have := findJsonEndGo_shift t 0 n 0 false false
  simpa using this

/-! ## Stream well-formedness: complete event objects and inert tails -/

/-- One of the five anchors occurs at index 0. -/
def anchoredAt0 (o : Str) : Bool := kiroPatterns.any (fun p => matchAt o p 0)

/-- Some anchor occurs somewhere in `s`. -/
def hasAnchor (s : Str) : Bool := kiroPatterns.any (fun p => (indexOfFrom s p 0).isSome)

/-- A buffer suffix on which the parser makes no further progress: empty, or
an anchored object whose closing brace has not arrived yet, or text free of
anchors. -/
def inertTail (t : Str) : Bool :=
  t == [] || (anchoredAt0 t && (findJsonEnd t 0 == none)) || !hasAnchor t

/-- An anchored buffer slice whose brace scan closes exactly at its last
character: `parseKiroEvents` consumes it in one step. -/
def isCompleteObject (o : Str) : Bool :=
  anchoredAt0 o && (findJsonEnd o 0 == some (o.length - 1))

/-- A complete object that also parses as JSON and classifies as one of the
five event shapes. -/
def isCompleteEventObject (o : Str) : Bool :=
  isCompleteObject o && (evtOf o).isSome

theorem hasAnchor_false_match {t : Str} (h : hasAnchor t = false) :
    ∀ p ∈ kiroPatterns, ∀ i, matchAt t p i = false := by
  intro p hp i
  have h2 : (indexOfFrom t p 0).isSome = false := by
    rw [hasAnchor, List.any_eq_false] at h
    simpa using h p hp
  have h3 : indexOfFrom t p 0 = none := by
    cases he : indexOfFrom t p 0 with
    | none => rfl
    | some x => rw [he] at h2; cases h2
  exact indexOfFrom_none_match (kiroPatterns_ne_nil p hp) h3 i (Nat.zero_le i)

theorem anchoredAt0_elim {o : Str} (h : anchoredAt0 o = true) :
    ∃ p ∈ kiroPatterns, matchAt o p 0 = true := by
  rw [anchoredAt0, List.any_eq_true] at h
  exact h

theorem complete_ne_nil {o : Str} (h : isCompleteObject o = true) : o ≠ [] := by
  rw [isCompleteObject, Bool.and_eq_true] at h
  obtain ⟨p, hp, hm⟩ := anchoredAt0_elim h.1
  intro rfl0
  subst rfl0
  have := matchAt_bound hm (kiroPatterns_ne_nil p hp)
  have hne : p ≠ [] := kiroPatterns_ne_nil p hp
  have : p.length = 0 := by simpa using this
  exact hne (List.length_eq_zero.mp this)

theorem parseKiroEventsGo_none {buffer : Str} {st fuel : ℕ} {events : List KiroStreamEvent}
    (h : firstCandidate buffer st = none) :
    parseKiroEventsGo buffer (fuel + 1) st events =
      ⟨events, if st > 0 ∧ buffer ≠ [] then buffer.drop st else buffer⟩ := by
  simp only [parseKiroEventsGo, h]

theorem parseKiroEventsGo_incomplete {buffer : Str} {st js fuel : ℕ}
    {events : List KiroStreamEvent}
    (h1 : firstCandidate buffer st = some js) (h2 : findJsonEnd buffer js = none) :
    parseKiroEventsGo buffer (fuel + 1) st events = ⟨events, buffer.drop js⟩ := by
  simp only [parseKiroEventsGo, h1, h2]

theorem parseKiroEventsGo_consume_last {buffer : Str} {st js je fuel : ℕ}
    {events : List KiroStreamEvent}
    (h1 : firstCandidate buffer st = some js) (h2 : findJsonEnd buffer js = some je)
    (h3 : je + 1 ≥ buffer.length) :
    parseKiroEventsGo buffer (fuel + 1) st events =
      ⟨(match evtOf ((buffer.drop js).take (je + 1 - js)) with
        | some e => events ++ [e]
        | none => events), []⟩ := by
  simp only [parseKiroEventsGo, h1, h2]
  rw [if_pos h3]

theorem parseKiroEventsGo_consume_step {buffer : Str} {st js je fuel : ℕ}
    {events : List KiroStreamEvent}
    (h1 : firstCandidate buffer st = some js) (h2 : findJsonEnd buffer js = some je)
    (h3 : ¬ je + 1 ≥ buffer.length) :
    parseKiroEventsGo buffer (fuel + 1) st events =
      parseKiroEventsGo buffer fuel (je + 1)
        (match evtOf ((buffer.drop js).take (je + 1 - js)) with
         | some e => events ++ [e]
         | none => events) := by
  simp only [parseKiroEventsGo, h1, h2]
  rw [if_neg h3]

/-- Core behaviour of the `parseKiroEvents` loop on a well-formed stream: a
prefix `pre` already consumed, then complete objects, then an inert tail.
The loop emits the classified events of the objects and leaves exactly the
tail as the remainder. -/
theorem parseKiroEventsGo_stream :
    ∀ (objs : List Str) (pre t : Str) (acc : List KiroStreamEvent) (fuel : ℕ),
      (∀ o ∈ objs, isCompleteObject o = true) → inertTail t = true →
      (objs.flatten ++ t).length < fuel →
      parseKiroEventsGo (pre ++ (objs.flatten ++ t)) fuel pre.length acc =
        ⟨acc ++ objs.filterMap evtOf, t⟩ := by
  intro objs
  induction objs with
  | nil =>
    intro pre t acc fuel _ ht hfuel
    obtain ⟨f, rfl⟩ : ∃ f, fuel = f + 1 := by
      cases fuel with
      | zero => omega
      | succ f => exact ⟨f, rfl⟩
    simp only [List.flatten_nil, List.nil_append, List.filterMap_nil, List.append_nil]
    have ht2 : t = [] ∨ (anchoredAt0 t = true ∧ findJsonEnd t 0 = none) ∨
        hasAnchor t = false := by
      rw [inertTail] at ht
      simp only [Bool.or_eq_true, Bool.and_eq_true, beq_iff_eq, Bool.not_eq_true'] at ht
      tauto
    rcases ht2 with rfl | ⟨ha, hf⟩ | hna
    · rw [List.append_nil]
      have hfc : firstCandidate pre pre.length = none := by
        apply firstCandidate_of_no_match
        intro p hp j hj
        exact matchAt_oob (kiroPatterns_ne_nil p hp) (by omega)
      rw [parseKiroEventsGo_none hfc]
      by_cases hpre : pre = []
      · subst hpre; simp
      · have hlp : pre.length > 0 := List.length_pos.mpr hpre
        rw [if_pos ⟨hlp, hpre⟩, List.drop_length]
    · obtain ⟨p, hp, hm⟩ := anchoredAt0_elim ha
      have hm2 : matchAt (pre ++ t) p pre.length = true := by
        have hs := matchAt_shift pre t p 0
        rw [Nat.add_zero] at hs
        rw [hs]
        exact hm
      have hfc : firstCandidate (pre ++ t) pre.length = some pre.length :=
        firstCandidate_at hp hm2
      have hfj : findJsonEnd (pre ++ t) pre.length = none := by
        rw [findJsonEnd, List.drop_left, findJsonEnd_shift_zero]
        rw [findJsonEnd, List.drop_zero] at hf
        rw [hf]
        rfl
      rw [parseKiroEventsGo_incomplete hfc hfj, List.drop_left]
    · have hfc : firstCandidate (pre ++ t) pre.length = none := by
        apply firstCandidate_of_no_match
        intro p hp j hj
        have hs := matchAt_shift pre t p (j - pre.length)
        have hj2 : pre.length + (j - pre.length) = j := by omega
        rw [hj2] at hs
        rw [hs]
        exact hasAnchor_false_match hna p hp _
      rw [parseKiroEventsGo_none hfc]
      by_cases hpre : pre = []
      · subst hpre; simp
      · have hlp : pre.length > 0 := List.length_pos.mpr hpre
        have hbne : pre ++ t ≠ [] := by simp [hpre]
        rw [if_pos ⟨hlp, hbne⟩, List.drop_left]
  | cons o rest ih =>
    intro pre t acc fuel hobjs ht hfuel
    obtain ⟨f, rfl⟩ : ∃ f, fuel = f + 1 := by
      cases fuel with
      | zero => omega
      | succ f => exact ⟨f, rfl⟩
    have ho : isCompleteObject o = true := hobjs o (List.mem_cons_self _ _)
    have hrest : ∀ x ∈ rest, isCompleteObject x = true :=
      fun x hx => hobjs x (List.mem_cons_of_mem _ hx)
    have hone : o ≠ [] := complete_ne_nil ho
    have holen : 1 ≤ o.length := List.length_pos.mpr hone
    rw [isCompleteObject, Bool.and_eq_true] at ho
    obtain ⟨ho1, ho2⟩ := ho
    rw [beq_iff_eq] at ho2
    obtain ⟨p, hp, hm⟩ := anchoredAt0_elim ho1
    have hshape : pre ++ ((o :: rest).flatten ++ t) = pre ++ (o ++ (rest.flatten ++ t)) := by
      simp [List.flatten_cons, List.append_assoc]
    rw [hshape]
    set R := rest.flatten ++ t with hR
    have hmo : matchAt (o ++ R) p 0 = true :=
      matchAt_append_right hm (kiroPatterns_ne_nil p hp)
    have hm2 : matchAt (pre ++ (o ++ R)) p pre.length = true := by
      have hs := matchAt_shift pre (o ++ R) p 0
      rw [Nat.add_zero] at hs
      rw [hs]
      exact hmo
    have hfc : firstCandidate (pre ++ (o ++ R)) pre.length = some pre.length :=
      firstCandidate_at hp hm2
    have hfo : findJsonEndGo o 0 0 false false = some (o.length - 1) := by
      rw [findJsonEnd, List.drop_zero] at ho2
      exact ho2
    have hfull : findJsonEnd (pre ++ (o ++ R)) pre.length =
        some ((o.length - 1) + pre.length) := by
      rw [findJsonEnd, List.drop_left, findJsonEnd_shift_zero,
        findJsonEndGo_append R hfo]
      rfl
    have hsub : ((pre ++ (o ++ R)).drop pre.length).take
        ((o.length - 1) + pre.length + 1 - pre.length) = o := by
      rw [List.drop_left]
      have harith : (o.length - 1) + pre.length + 1 - pre.length = o.length := by omega
      rw [harith, List.take_left]
    by_cases hRnil : R = []
    · have hlen : (o.length - 1) + pre.length + 1 ≥ (pre ++ (o ++ R)).length := by
        rw [hRnil]
        simp only [List.append_nil, List.length_append]
        omega
      rw [parseKiroEventsGo_consume_last hfc hfull hlen, hsub]
      have hrt : rest.flatten = [] ∧ t = [] := List.append_eq_nil.mp hRnil
      have hrestnil : rest = [] := by
        cases rest with
        | nil => rfl
        | cons x xs =>
          exfalso
          have hx : x = [] := (List.flatten_eq_nil_iff.mp hrt.1) x (List.mem_cons_self _ _)
          exact complete_ne_nil (hrest x (List.mem_cons_self _ _)) hx
      rw [hrestnil, hrt.2]
      cases he : evtOf o <;> simp [List.filterMap_cons, he]
    · have hRlen : 0 < R.length := List.length_pos.mpr hRnil
      have hlen : ¬ ((o.length - 1) + pre.length + 1 ≥ (pre ++ (o ++ R)).length) := by
        simp only [List.length_append]
        omega
      rw [parseKiroEventsGo_consume_step hfc hfull hlen, hsub]
      have hb2 : pre ++ (o ++ R) = (pre ++ o) ++ (rest.flatten ++ t) := by
        rw [hR]
        simp [List.append_assoc]
      have hs2 : (o.length - 1) + pre.length + 1 = (pre ++ o).length := by
        simp only [List.length_append]
        omega
      have hfuel2 : (rest.flatten ++ t).length < f := by
        rw [List.flatten_cons] at hfuel
        simp only [List.length_append] at hfuel ⊢
        omega
      rw [hb2, hs2]
      rw [ih (pre ++ o) t (match evtOf o with
        | some e => acc ++ [e]
        | none => acc) f hrest ht hfuel2]
      cases he : evtOf o <;> simp [List.filterMap_cons, he]

/-- `parseKiroEvents` on a stream of complete objects followed by an inert
tail: each object yields its classified event, the tail is the remainder. -/
theorem parseKiroEvents_stream (objs : List Str) (t : Str)
    (hobjs : ∀ o ∈ objs, isCompleteObject o = true) (ht : inertTail t = true) :
    parseKiroEvents (objs.flatten ++ t) = ⟨objs.filterMap evtOf, t⟩ := by
  have h := parseKiroEventsGo_stream objs [] t [] ((objs.flatten ++ t).length + 1)
    hobjs ht (by omega)
  simpa [parseKiroEvents] using h

theorem filterMap_length_of_isSome {α β : Type} (f : α → Option β) :
    ∀ l : List α, (∀ x ∈ l, (f x).isSome = true) → (l.filterMap f).length = l.length := by
  intro l
  induction l with
  | nil => intro _; rfl
  | cons a t ih =>
    intro h
    have ha := h a (List.mem_cons_self _ _)
    obtain ⟨b, hb⟩ := Option.isSome_iff_exists.mp ha
    rw [List.filterMap_cons, hb]
    simp only [List.length_cons]
    rw [ih (fun x hx => h x (List.mem_cons_of_mem _ hx))]

/-- Claim C1: for a buffer that is the concatenation of N complete event
objects (each anchored by one of the five field-name patterns, brace-balanced
exactly at its end, and classifying as an event), `parseKiroEvents` returns
exactly N events and an empty remainder, for any N including 0. -/
theorem claim_C1_complete_buffer (objs : List Str)
    (h : ∀ o ∈ objs, isCompleteEventObject o = true) :
    (parseKiroEvents objs.flatten).events.length = objs.length ∧
      (parseKiroEvents objs.flatten).remaining = [] := by
  have hobjs : ∀ o ∈ objs, isCompleteObject o = true := by
    intro o ho
    have h2 := h o ho
    rw [isCompleteEventObject, Bool.and_eq_true] at h2
    exact h2.1
  have hmain := parseKiroEvents_stream objs [] hobjs rfl
  rw [List.append_nil] at hmain
  rw [hmain]
  refine ⟨?_, rfl⟩
  refine filterMap_length_of_isSome _ _ ?_
  intro o ho
  have h2 := h o ho
  rw [isCompleteEventObject, Bool.and_eq_true] at h2
  exact h2.2

/-- Witness for C1: a concrete two-object buffer. -/
theorem claim_C1_witness :
    (∀ o ∈ [s2l "\x7b\"content\":\"Hi\"\x7d", s2l "\x7b\"contextUsagePercentage\":10\x7d"],
        isCompleteEventObject o = true) ∧
      ((parseKiroEvents [s2l "\x7b\"content\":\"Hi\"\x7d",
          s2l "\x7b\"contextUsagePercentage\":10\x7d"].flatten).events.length =
        [s2l "\x7b\"content\":\"Hi\"\x7d", s2l "\x7b\"contextUsagePercentage\":10\x7d"].length ∧
       (parseKiroEvents [s2l "\x7b\"content\":\"Hi\"\x7d",
          s2l "\x7b\"contextUsagePercentage\":10\x7d"].flatten).remaining = []) :=
  ⟨by decide, claim_C1_complete_buffer _ (by decide)⟩

theorem kiroPatterns_nonpre :
    ∀ p ∈ kiroPatterns, ∀ q ∈ kiroPatterns, q.length < p.length →
      p.take q.length ≠ q := by decide

theorem kiroPatterns_head0 : ∀ q ∈ kiroPatterns, q[0]? = some '\x7b' := by decide

theorem kiroPatterns_tail_no_brace :
    ∀ p ∈ kiroPatterns, (p.drop 1).all (fun c => c ≠ '\x7b') = true := by decide

theorem matchAt_getElem {s p : Str} {i : ℕ} (h : matchAt s p i = true)
    (j : ℕ) (hj : j < p.length) : s[i + j]? = p[j]? := by
  have h2 := matchAt_eq_true_iff.mp h
  have h3 : p[j]? = ((s.drop i).take p.length)[j]? := by rw [h2]
  rw [List.getElem?_take, if_pos hj, List.getElem?_drop] at h3
  exact h3.symm

theorem matchAt_of_take {t q : Str} {k j : ℕ} (hq : q ≠ [])
    (h : matchAt (t.take k) q j = true) : matchAt t q j = true := by
  have hb := matchAt_bound h hq
  rw [List.length_take] at hb
  rw [matchAt_eq_true_iff] at h ⊢
  rw [List.drop_take] at h
  rw [List.take_take, min_eq_left (by omega)] at h
  exact h

theorem no_anchor_short {o p : Str} (hp : p ∈ kiroPatterns) (h0 : matchAt o p 0 = true)
    {k : ℕ} (hk : k < p.length) : hasAnchor (o.take k) = false := by
  rw [hasAnchor, List.any_eq_false]
  intro q hq
  simp only [Bool.not_eq_true]
  have hqne := kiroPatterns_ne_nil q hq
  have hnomatch : ∀ j, matchAt (o.take k) q j = false := by
    intro j
    by_contra hcon
    have hm : matchAt (o.take k) q j = true := by
      cases hmm : matchAt (o.take k) q j with
      | false => exact absurd hmm hcon
      | true => rfl
    have hbound := matchAt_bound hm hqne
    have hlen : (o.take k).length ≤ k := by rw [List.length_take]; omega
    have hqpos : 0 < q.length := List.length_pos.mpr hqne
    rcases Nat.eq_zero_or_pos j with rfl | hj
    · have hqo : matchAt o q 0 = true := matchAt_of_take hqne hm
      have hq1 := matchAt_eq_true_iff.mp hqo
      have hp1 := matchAt_eq_true_iff.mp h0
      rw [List.drop_zero] at hq1 hp1
      have hqp : p.take q.length = q := by
        rw [← hp1, List.take_take, min_eq_left (by omega)]
        exact hq1
      exact kiroPatterns_nonpre p hp q hq (by omega) hqp
    · have hq0 : q[0]? = some '\x7b' := kiroPatterns_head0 q hq
      have ho_j : o[j]? = some '\x7b' := by
        have hg := matchAt_getElem (matchAt_of_take hqne hm) 0 hqpos
        rw [Nat.add_zero] at hg
        rw [hg, hq0]
      have hp_j : p[j]? = some '\x7b' := by
        have hg := matchAt_getElem h0 j (by omega)
        rw [Nat.zero_add] at hg
        rw [← hg, ho_j]
      have hmem : '\x7b' ∈ p.drop 1 := by
        have hd := List.getElem?_drop p 1 (j - 1)
        rw [show 1 + (j - 1) = j by omega] at hd
        rw [hp_j] at hd
        obtain ⟨hlt, hv⟩ := List.getElem?_eq_some.mp hd
        exact hv ▸ List.getElem_mem hlt
      have hall := List.all_eq_true.mp (kiroPatterns_tail_no_brace p hp) _ hmem
      simp at hall
  rw [indexOfFrom_of_no_match (fun j _ => hnomatch j)]
  rfl

theorem inertTail_of_parts {t : Str}
    (h : t = [] ∨ (anchoredAt0 t = true ∧ findJsonEnd t 0 = none) ∨ hasAnchor t = false) :
    inertTail t = true := by
  rw [inertTail]
  rcases h with rfl | ⟨h1, h2⟩ | h3
  · rfl
  · simp [h1, h2]
  · simp [h3]

theorem inert_take_complete {o : Str} (h : isCompleteObject o = true)
    {k : ℕ} (hk : k < o.length) : inertTail (o.take k) = true := by
  rw [isCompleteObject, Bool.and_eq_true] at h
  obtain ⟨h1, h2⟩ := h
  rw [beq_iff_eq] at h2
  obtain ⟨p, hp, hm⟩ := anchoredAt0_elim h1
  apply inertTail_of_parts
  by_cases hkp : k < p.length
  · exact Or.inr (Or.inr (no_anchor_short hp hm hkp))
  · refine Or.inr (Or.inl ⟨?_, ?_⟩)
    · rw [anchoredAt0, List.any_eq_true]
      refine ⟨p, hp, ?_⟩
      rw [matchAt_eq_true_iff, List.drop_zero, List.take_take, min_eq_left (by omega)]
      have := matchAt_eq_true_iff.mp hm
      rw [List.drop_zero] at this
      exact this
    · rw [findJsonEnd, List.drop_zero]
      rw [findJsonEnd, List.drop_zero] at h2
      exact findJsonEndGo_take_none_of_first h2 (by omega)

theorem inert_take_inert {t : Str} (h : inertTail t = true) (k : ℕ) :
    inertTail (t.take k) = true := by
  by_cases hk : t.length ≤ k
  · rw [List.take_of_length_le hk]
    exact h
  · push_neg at hk
    rw [inertTail] at h
    simp only [Bool.or_eq_true, Bool.and_eq_true, beq_iff_eq, Bool.not_eq_true'] at h
    apply inertTail_of_parts
    rcases h with (rfl | ⟨ha, hf⟩) | hna
    · simp
    · obtain ⟨p, hp, hm⟩ := anchoredAt0_elim ha
      by_cases hkp : k < p.length
      · exact Or.inr (Or.inr (no_anchor_short hp hm hkp))
      · refine Or.inr (Or.inl ⟨?_, ?_⟩)
        · rw [anchoredAt0, List.any_eq_true]
          refine ⟨p, hp, ?_⟩
          rw [matchAt_eq_true_iff, List.drop_zero, List.take_take, min_eq_left (by omega)]
          have := matchAt_eq_true_iff.mp hm
          rw [List.drop_zero] at this
          exact this
        · rw [findJsonEnd, List.drop_zero]
          rw [findJsonEnd, List.drop_zero] at hf
          exact findJsonEndGo_take_none hf k
    · refine Or.inr (Or.inr ?_)
      rw [hasAnchor, List.any_eq_false]
      intro q hq
      simp only [Bool.not_eq_true]
      have hqne := kiroPatterns_ne_nil q hq
      have hnomatch : ∀ j, matchAt (t.take k) q j = false := by
        intro j
        cases hmm : matchAt (t.take k) q j with
        | false => rfl
        | true =>
          exfalso
          have := matchAt_of_take hqne hmm
          rw [hasAnchor_false_match hna q hq j] at this
          cases this
      rw [indexOfFrom_of_no_match (fun j _ => hnomatch j)]
      rfl

/-- Any byte-offset split of a well-formed stream decomposes into a run of
whole objects plus an inert partial prefix; the partial prefix glued back
onto the rest of the stream restores the remaining objects and tail. -/
theorem stream_take_decomp :
    ∀ (objs : List Str) (t : Str) (k : ℕ),
      (∀ o ∈ objs, isCompleteObject o = true) → inertTail t = true →
      ∃ objs1 objs2 u, objs = objs1 ++ objs2 ∧
        (objs.flatten ++ t).take k = objs1.flatten ++ u ∧ inertTail u = true ∧
        u ++ (objs.flatten ++ t).drop k = objs2.flatten ++ t := by
  intro objs
  induction objs with
  | nil =>
    intro t k _ ht
    refine ⟨[], [], t.take k, rfl, by simp, inert_take_inert ht k, ?_⟩
    simp [List.take_append_drop]
  | cons o rest ih =>
    intro t k hobjs ht
    have ho := hobjs o (List.mem_cons_self _ _)
    have hrest : ∀ x ∈ rest, isCompleteObject x = true :=
      fun x hx => hobjs x (List.mem_cons_of_mem _ hx)
    have hshape : (o :: rest).flatten ++ t = o ++ (rest.flatten ++ t) := by
      simp [List.flatten_cons, List.append_assoc]
    rcases lt_trichotomy k o.length with hk | hk | hk
    · refine ⟨[], o :: rest, o.take k, rfl, ?_, inert_take_complete ho hk, ?_⟩
      · rw [hshape, List.take_append_eq_append_take,
          show k - o.length = 0 from by omega, List.take_zero, List.append_nil]
        simp
      · rw [hshape, List.drop_append_eq_append_drop,
          show k - o.length = 0 from by omega, List.drop_zero,
          ← List.append_assoc, List.take_append_drop, ← hshape]
    · subst hk
      refine ⟨[o], rest, [], by simp, ?_, rfl, ?_⟩
      · rw [hshape, List.take_left]
        simp
      · rw [hshape, List.drop_left]
        simp
    · obtain ⟨objs1, objs2, u, heq, htake, hu, hdrop⟩ := ih t (k - o.length) hrest ht
      refine ⟨o :: objs1, objs2, u, by rw [List.cons_append, heq], ?_, hu, ?_⟩
      · rw [hshape, List.take_append_eq_append_take,
          List.take_of_length_le (by omega), htake, List.flatten_cons,
          List.append_assoc]
      · rw [hshape, List.drop_append_eq_append_drop,
          List.drop_eq_nil_of_le (le_of_lt hk), List.nil_append, hdrop]

/-- Claim C2: (a) a well-formed buffer that ends mid-object yields all
complete leading events and the suffix from the incomplete object's anchor
as remainder; (b) chunk-boundary independence: splitting such a stream at
any byte offset, parsing the first chunk, and parsing its remainder glued to
the second chunk reproduces the events and remainder of a one-call parse. -/
theorem claim_C2_remainder_and_split :
    (∀ (objs : List Str) (t : Str),
      (∀ o ∈ objs, isCompleteEventObject o = true) →
      anchoredAt0 t = true → findJsonEnd t 0 = none →
      parseKiroEvents (objs.flatten ++ t) = ⟨objs.filterMap evtOf, t⟩) ∧
    (∀ (objs : List Str) (t : Str) (k : ℕ),
      (∀ o ∈ objs, isCompleteObject o = true) → inertTail t = true →
      (parseKiroEvents ((objs.flatten ++ t).take k)).events ++
        (parseKiroEvents ((parseKiroEvents ((objs.flatten ++ t).take k)).remaining ++
          (objs.flatten ++ t).drop k)).events =
        (parseKiroEvents (objs.flatten ++ t)).events ∧
      (parseKiroEvents ((parseKiroEvents ((objs.flatten ++ t).take k)).remaining ++
          (objs.flatten ++ t).drop k)).remaining =
        (parseKiroEvents (objs.flatten ++ t)).remaining) := by
  constructor
  · intro objs t h ha hf
    have hobjs : ∀ o ∈ objs, isCompleteObject o = true := by
      intro o ho
      have h2 := h o ho
      rw [isCompleteEventObject, Bool.and_eq_true] at h2
      exact h2.1
    exact parseKiroEvents_stream objs t hobjs
      (inertTail_of_parts (Or.inr (Or.inl ⟨ha, hf⟩)))
  · intro objs t k hobjs ht
    obtain ⟨objs1, objs2, u, heq, htake, hu, hdrop⟩ := stream_take_decomp objs t k hobjs ht
    have hobjs1 : ∀ o ∈ objs1, isCompleteObject o = true :=
      fun o ho => hobjs o (heq ▸ List.mem_append_left _ ho)
    have hobjs2 : ∀ o ∈ objs2, isCompleteObject o = true :=
      fun o ho => hobjs o (heq ▸ List.mem_append_right _ ho)
    have h1 : parseKiroEvents ((objs.flatten ++ t).take k) =
        ⟨objs1.filterMap evtOf, u⟩ := by
      rw [htake]
      exact parseKiroEvents_stream objs1 u hobjs1 hu
    have h2 : parseKiroEvents (objs2.flatten ++ t) = ⟨objs2.filterMap evtOf, t⟩ :=
      parseKiroEvents_stream objs2 t hobjs2 ht
    have hwhole : parseKiroEvents (objs.flatten ++ t) = ⟨objs.filterMap evtOf, t⟩ :=
      parseKiroEvents_stream objs t hobjs ht
    rw [h1]
    simp only
    rw [hdrop, h2, hwhole]
    simp [heq, List.filterMap_append]

/-- Witness for C2: one complete object followed by a truncated second
object, split inside the second object. -/
theorem claim_C2_witness :
    ((∀ o ∈ [s2l "\x7b\"content\":\"A\"\x7d"], isCompleteEventObject o = true) ∧
      anchoredAt0 (s2l "\x7b\"stop\":tr") = true ∧
      findJsonEnd (s2l "\x7b\"stop\":tr") 0 = none ∧
      parseKiroEvents ([s2l "\x7b\"content\":\"A\"\x7d"].flatten ++ s2l "\x7b\"stop\":tr") =
        ⟨[s2l "\x7b\"content\":\"A\"\x7d"].filterMap evtOf, s2l "\x7b\"stop\":tr"⟩) ∧
    ((∀ o ∈ [s2l "\x7b\"content\":\"A\"\x7d", s2l "\x7b\"stop\":true\x7d"],
        isCompleteObject o = true) ∧ inertTail ([] : Str) = true ∧
      ((parseKiroEvents (([s2l "\x7b\"content\":\"A\"\x7d", s2l "\x7b\"stop\":true\x7d"].flatten ++
          ([] : Str)).take 20)).events ++
        (parseKiroEvents ((parseKiroEvents (([s2l "\x7b\"content\":\"A\"\x7d",
            s2l "\x7b\"stop\":true\x7d"].flatten ++ ([] : Str)).take 20)).remaining ++
          ([s2l "\x7b\"content\":\"A\"\x7d", s2l "\x7b\"stop\":true\x7d"].flatten ++
            ([] : Str)).drop 20)).events =
        (parseKiroEvents ([s2l "\x7b\"content\":\"A\"\x7d",
          s2l "\x7b\"stop\":true\x7d"].flatten ++ ([] : Str))).events)) :=
  ⟨⟨by decide, by decide, by decide,
    claim_C2_remainder_and_split.1 _ _ (by decide) (by decide) (by decide)⟩,
   ⟨by decide, by decide,
    (claim_C2_remainder_and_split.2 _ _ 20 (by decide) (by decide)).1⟩⟩

/-! ## Thinking tag extractor (ThinkingTagParser) -/

def THINKING_START_TAG : Str := s2l "<thinking>"

def THINKING_END_TAG : Str := s2l "</thinking>"

/-- Assistant output content blocks (`output.content`).  A tool call block
stores the raw accumulated input text; the assembled `arguments` value is
`(jsonParse input).getD (JsVal.obj [])`, which no verified property
inspects, so the raw text is kept for decidable equality. -/
inductive OutBlock where
  | text (text : Str)
  | thinking (thinking : Str)
  | toolCall (id : Str) (name : Str) (input : Str)
deriving DecidableEq

/-- The events pushed on the assistant message event stream, with the
payloads the verified properties observe. -/
inductive EvKind where
  | startEv
  | text_start
  | text_delta (delta : Str)
  | text_end (content : Str)
  | thinking_start
  | thinking_delta (delta : Str)
  | thinking_end (content : Str)
  | toolcall_start
  | toolcall_delta (delta : Str)
  | toolcall_end
  | doneEv
deriving DecidableEq

/-- The mutable fields of `ThinkingTagParser`. -/
structure TPState where
  textBuffer : Str
  inThinking : Bool
  thinkingExtracted : Bool
  thinkingBlockIndex : Option ℕ
  textBlockIndex : Option ℕ
deriving DecidableEq

/-- `output.content` together with the pushed event log. -/
structure SOut where
  content : List OutBlock
  log : List EvKind
deriving DecidableEq

def tpInit : TPState := ⟨[], false, false, none, none⟩

def soInit : SOut := ⟨[], []⟩

def getThinkingAt (content : List OutBlock) (idx : ℕ) : Str :=
  match content.getD idx (OutBlock.text []) with
  | OutBlock.thinking s => s
  | _ => []

def getTextAt (content : List OutBlock) (idx : ℕ) : Str :=
  match content.getD idx (OutBlock.text []) with
  | OutBlock.text s => s
  | _ => []

def appendTextAt (content : List OutBlock) (idx : ℕ) (t : Str) : List OutBlock :=
  content.set idx (match content.getD idx (OutBlock.text []) with
    | OutBlock.text s => OutBlock.text (s ++ t)
    | other => other)

def appendThinkingAt (content : List OutBlock) (idx : ℕ) (t : Str) : List OutBlock :=
  content.set idx (match content.getD idx (OutBlock.text []) with
    | OutBlock.thinking s => OutBlock.thinking (s ++ t)
    | other => other)

/-- `emitText` (part_003 lines 300-309): allocate the text block on first
use, append the delta, push the events. -/
def emitText (tp : TPState) (so : SOut) (text : Str) : TPState × SOut :=
  match tp.textBlockIndex with
  | none =>
    let idx := so.content.length
    let so2 : SOut := ⟨so.content ++ [OutBlock.text []], so.log ++ [EvKind.text_start]⟩
    ({ tp with textBlockIndex := some idx },
     ⟨appendTextAt so2.content idx text, so2.log ++ [EvKind.text_delta text]⟩)
  | some idx =>
    (tp, ⟨appendTextAt so.content idx text, so.log ++ [EvKind.text_delta text]⟩)

/-- `emitThinking` (part_003 lines 311-325). -/
def emitThinking (tp : TPState) (so : SOut) (thinking : Str) : TPState × SOut :=
  match tp.thinkingBlockIndex with
  | none =>
    let idx := so.content.length
    let so2 : SOut := ⟨so.content ++ [OutBlock.thinking []], so.log ++ [EvKind.thinking_start]⟩
    ({ tp with thinkingBlockIndex := some idx },
     ⟨appendThinkingAt so2.content idx thinking, so2.log ++ [EvKind.thinking_delta thinking]⟩)
  | some idx =>
    (tp, ⟨appendThinkingAt so.content idx thinking, so.log ++ [EvKind.thinking_delta thinking]⟩)

/-- `processBeforeThinking` (part_003 lines 254-267): search for the full
open marker; on a hit flush the preceding text and enter the thinking
section, otherwise withhold the last `THINKING_START_TAG.length` characters
(`safeLen = max(0, length - tagLength)`) and flush the rest. -/
def processBeforeThinking (tp : TPState) (so : SOut) : TPState × SOut :=
  match indexOfFrom tp.textBuffer THINKING_START_TAG 0 with
  | some startPos =>
    let (tp2, so2) :=
      if startPos > 0 then emitText tp so (tp.textBuffer.take startPos) else (tp, so)
    ({ tp2 with textBuffer := tp.textBuffer.drop (startPos + THINKING_START_TAG.length),
                inThinking := true }, so2)
  | none =>
    let safeLen := tp.textBuffer.length - THINKING_START_TAG.length
    if safeLen > 0 then
      let (tp2, so2) := emitText tp so (tp.textBuffer.take safeLen)
      ({ tp2 with textBuffer := tp.textBuffer.drop safeLen }, so2)
    else (tp, so)

/-- `processInsideThinking` (part_003 lines 269-293): search for the close
marker; on a hit flush the preceding thinking text, push the end event with
the accumulated thinking, leave the section, and strip one leading blank
line from the remainder; otherwise withhold the last
`THINKING_END_TAG.length` characters and flush the rest as thinking. -/
def processInsideThinking (tp : TPState) (so : SOut) : TPState × SOut :=
  match indexOfFrom tp.textBuffer THINKING_END_TAG 0 with
  | some endPos =>
    let (tp2, so2) :=
      if endPos > 0 then emitThinking tp so (tp.textBuffer.take endPos) else (tp, so)
    let so3 : SOut :=
      match tp2.thinkingBlockIndex with
      | some idx =>
        ⟨so2.content, so2.log ++ [EvKind.thinking_end (getThinkingAt so2.content idx)]⟩
      | none => so2
    let buf2 := tp.textBuffer.drop (endPos + THINKING_END_TAG.length)
    let buf3 := if buf2.take 2 = ['\n', '\n'] then buf2.drop 2 else buf2
    ({ tp2 with textBuffer := buf3, inThinking := false, thinkingExtracted := true }, so3)
  | none =>
    let safeLen := tp.textBuffer.length - THINKING_END_TAG.length
    if safeLen > 0 then
      let (tp2, so2) := emitThinking tp so (tp.textBuffer.take safeLen)
      ({ tp2 with textBuffer := tp.textBuffer.drop safeLen }, so2)
    else (tp, so)

/-- `processAfterThinking` (part_003 lines 295-298). -/
def processAfterThinking (tp : TPState) (so : SOut) : TPState × SOut :=
  let (tp2, so2) := emitText tp so tp.textBuffer
  ({ tp2 with textBuffer := [] }, so2)

/-- The `while` loop of `processChunk` (part_003 lines 209-224).  Every
continuing iteration strictly shrinks the buffer (the `length >= prevLength`
guard breaks otherwise), so fuel exceeding the buffer length never runs
out. -/
def pcLoop : ℕ → TPState → SOut → TPState × SOut
  | 0, tp, so => (tp, so)
  | fuel + 1, tp0, so0 =>
    if tp0.textBuffer = [] then (tp0, so0)
    else
      let prev := tp0.textBuffer.length
      let s1 :=
        if ¬ tp0.inThinking ∧ ¬ tp0.thinkingExtracted then processBeforeThinking tp0 so0
        else (tp0, so0)
      if s1.1.textBuffer = [] then s1
      else
        let s2 := if s1.1.inThinking then processInsideThinking s1.1 s1.2 else s1
        if s2.1.textBuffer = [] then s2
        else if s2.1.thinkingExtracted then processAfterThinking s2.1 s2.2
        else if s2.1.textBuffer.length ≥ prev then s2
        else pcLoop fuel s2.1 s2.2

/-- `processChunk` (part_003 lines 207-225). -/
def processChunk (tp : TPState) (so : SOut) (chunk : Str) : TPState × SOut :=
  let tp1 : TPState := { tp with textBuffer := tp.textBuffer ++ chunk }
  pcLoop (tp1.textBuffer.length + 1) tp1 so

/-- `finalize` (part_003 lines 227-248). -/
def tpFinalize (tp : TPState) (so : SOut) : TPState × SOut :=
  if tp.textBuffer = [] then (tp, so)
  else
    let res :=
      if h : tp.inThinking ∧ tp.thinkingBlockIndex.isSome then
        let idx := tp.thinkingBlockIndex.get h.2
        let c2 := appendThinkingAt so.content idx tp.textBuffer
        (tp, (⟨c2, so.log ++ [EvKind.thinking_delta tp.textBuffer,
               EvKind.thinking_end (getThinkingAt c2 idx)]⟩ : SOut))
      else emitText tp so tp.textBuffer
    ({ res.1 with textBuffer := [] }, res.2)

def isTextBlock : OutBlock → Bool
  | OutBlock.text _ => true
  | _ => false

def isThinkingBlock : OutBlock → Bool
  | OutBlock.thinking _ => true
  | _ => false

/-- Concatenation of all text-block contents (the answer text). -/
def answerText (so : SOut) : Str :=
  (so.content.filterMap (fun b => match b with
    | OutBlock.text s => some s
    | _ => none)).flatten

/-- Concatenation of all thinking-block contents. -/
def thinkingText (so : SOut) : Str :=
  (so.content.filterMap (fun b => match b with
    | OutBlock.thinking s => some s
    | _ => none)).flatten

def countTextBlocks (so : SOut) : ℕ := (so.content.filter isTextBlock).length

def countThinkingBlocks (so : SOut) : ℕ := (so.content.filter isThinkingBlock).length

theorem emitText_fields (tp : TPState) (so : SOut) (t : Str) :
    (emitText tp so t).1.textBuffer = tp.textBuffer ∧
    (emitText tp so t).1.inThinking = tp.inThinking ∧
    (emitText tp so t).1.thinkingExtracted = tp.thinkingExtracted ∧
    (emitText tp so t).1.thinkingBlockIndex = tp.thinkingBlockIndex := by
  cases h : tp.textBlockIndex <;> simp [emitText, h]

theorem emitThinking_fields (tp : TPState) (so : SOut) (t : Str) :
    (emitThinking tp so t).1.textBuffer = tp.textBuffer ∧
    (emitThinking tp so t).1.inThinking = tp.inThinking ∧
    (emitThinking tp so t).1.thinkingExtracted = tp.thinkingExtracted ∧
    (emitThinking tp so t).1.textBlockIndex = tp.textBlockIndex := by
  cases h : tp.thinkingBlockIndex <;> simp [emitThinking, h]

theorem matchAt_dropped (s p : Str) (n j : ℕ) :
    matchAt (s.drop n) p j = matchAt s p (n + j) := by
  unfold matchAt
  rw [List.drop_drop]

/-- One run of the whole input compared against the fixed content stream of
the thinking-extractor scenario. -/
def thinkSample : Str := s2l "<thinking>A</thinking>\n\nB"

/-- State of the extractor after one `processChunk` of the first `k`
characters of `thinkSample` from the initial state. -/
def sigma3 (k : ℕ) : TPState × SOut := processChunk tpInit soInit (thinkSample.take k)

/-- Chunk boundaries that do not fall immediately after the close marker
(offset 22) or between the two separator newlines (offset 23). -/
def okCut (k : ℕ) : Bool := k ≠ 22 && k ≠ 23

def cutsAt (chunks : List Str) (i : ℕ) : ℕ := ((chunks.take i).map List.length).sum

/-- Run the extractor over a chunk sequence and finalize, as one turn of the
stream reader does. -/
def runThinking (chunks : List Str) : TPState × SOut :=
  let st := chunks.foldl (fun st c => processChunk st.1 st.2 c) (tpInit, soInit)
  tpFinalize st.1 st.2

set_option maxRecDepth 8000 in
theorem tp_step :
    ∀ k < 26, ∀ n < 26, (k ≤ n ∧ okCut k = true ∧ okCut n = true →
      processChunk (sigma3 k).1 (sigma3 k).2 ((thinkSample.take n).drop k) = sigma3 n) := by
  decide

theorem tp_fold_path :
    ∀ (chunks : List Str) (k : ℕ), k ≤ 25 → okCut k = true →
      (∀ i, i ≤ chunks.length → okCut (k + cutsAt chunks i) = true) →
      chunks.flatten = thinkSample.drop k →
      chunks.foldl (fun st c => processChunk st.1 st.2 c) (sigma3 k) = sigma3 25 := by
  intro chunks
  induction chunks with
  | nil =>
    intro k hk _ _ hflat
    simp only [List.flatten_nil] at hflat
    have hlen : thinkSample.length = 25 := by decide
    have hlen2 := congrArg List.length hflat
    rw [List.length_drop, hlen] at hlen2
    simp only [List.length_nil] at hlen2
    have : k = 25 := by omega
    subst this
    simp
  | cons c cs ih =>
    intro k hk hok hcuts hflat
    rw [List.flatten_cons] at hflat
    have hlen : thinkSample.length = 25 := by decide
    have hclen : k + c.length ≤ 25 := by
      have h2 := congrArg List.length hflat
      rw [List.length_append, List.length_drop, hlen] at h2
      omega
    have hsl : (thinkSample.take (k + c.length)).drop k = c := by
      rw [List.drop_take]
      have h1 : k + c.length - k = c.length := by omega
      rw [h1, ← hflat, List.take_left]
    have hokn : okCut (k + c.length) = true := by
      have h1 := hcuts 1 (by simp)
      simpa [cutsAt] using h1
    have hstep := tp_step k (by omega) (k + c.length) (by omega) ⟨by omega, hok, hokn⟩
    rw [List.foldl_cons]
    have hc : processChunk (sigma3 k).1 (sigma3 k).2 c = sigma3 (k + c.length) := by
      conv_lhs => rw [← hsl]
      exact hstep
    simp only [hc]
    refine ih (k + c.length) hclen hokn ?_ ?_
    · intro i hi
      have h1 := hcuts (i + 1) (by simpa using Nat.succ_le_succ hi)
      have h2 : cutsAt (c :: cs) (i + 1) = c.length + cutsAt cs i := by
        simp [cutsAt, List.take_succ_cons]
      rw [h2, ← Nat.add_assoc] at h1
      exact h1
    · have h1 : cs.flatten = (thinkSample.drop k).drop c.length := by
        rw [← hflat, List.drop_left]
      rw [h1, List.drop_drop, Nat.add_comm]

/-- Claim C3 (amended): for the stream `<thinking>A</thinking>\n\nB` fed as
any sequence of chunks whose boundaries avoid byte offsets 22 and 23 (right
after the close marker and between the two separator newlines), the
extractor yields exactly one thinking block "A" and one answer block "B".
A boundary at offset 22 or 23 leaves the separator in the answer (see the
counterexample). -/
theorem claim_C3_thinking_split (chunks : List Str)
    (hflat : chunks.flatten = thinkSample)
    (hcuts : ∀ i, i ≤ chunks.length → okCut (cutsAt chunks i) = true) :
    answerText (runThinking chunks).2 = s2l "B" ∧
    thinkingText (runThinking chunks).2 = s2l "A" ∧
    countTextBlocks (runThinking chunks).2 = 1 ∧
    countThinkingBlocks (runThinking chunks).2 = 1 := by
  have h0 : sigma3 0 = (tpInit, soInit) := by decide
  have hfold := tp_fold_path chunks 0 (by omega) (by decide)
    (by intro i hi; simpa using hcuts i hi)
    (by rw [hflat, List.drop_zero])
  rw [h0] at hfold
  rw [runThinking]
  simp only [hfold]
  decide

/-- Counterexample to C3 as stated: splitting right after the close marker
(chunks `<thinking>A</thinking>` and `\n\nB`, a valid byte-offset split of
the stream) leaves the blank-line separator in the answer, which becomes
`\n\nB` instead of `B`. -/
theorem claim_C3_counterexample :
    (s2l "<thinking>A</thinking>") ++ (s2l "\n\nB") = thinkSample ∧
    answerText (runThinking [s2l "<thinking>A</thinking>", s2l "\n\nB"]).2 = s2l "\n\nB" ∧
    thinkingText (runThinking [s2l "<thinking>A</thinking>", s2l "\n\nB"]).2 = s2l "A" ∧
    s2l "\n\nB" ≠ s2l "B" := by
  decide

/-- Witness for the amended C3 at the two-chunk split after `<thin`. -/
theorem claim_C3_witness :
    ([s2l "<thin", s2l "king>A</thinking>\n\nB"].flatten = thinkSample ∧
      (∀ i, i ≤ [s2l "<thin", s2l "king>A</thinking>\n\nB"].length →
        okCut (cutsAt [s2l "<thin", s2l "king>A</thinking>\n\nB"] i) = true)) ∧
    answerText (runThinking [s2l "<thin", s2l "king>A</thinking>\n\nB"]).2 = s2l "B" ∧
    thinkingText (runThinking [s2l "<thin", s2l "king>A</thinking>\n\nB"]).2 = s2l "A" ∧
    countTextBlocks (runThinking [s2l "<thin", s2l "king>A</thinking>\n\nB"]).2 = 1 ∧
    countThinkingBlocks (runThinking [s2l "<thin", s2l "king>A</thinking>\n\nB"]).2 = 1 :=
  ⟨⟨by decide, by decide⟩,
   claim_C3_thinking_split _ (by decide) (by decide)⟩

theorem containsSub_false_match {s p : Str} (hp : p ≠ [])
    (h : containsSub s p = false) : ∀ j, matchAt s p j = false := by
  have hn : indexOfFrom s p 0 = none := by
    cases he : indexOfFrom s p 0 with
    | none => rfl
    | some x => rw [containsSub, he] at h; cases h
  exact fun j => indexOfFrom_none_match hp hn j (Nat.zero_le j)

theorem processBefore_notag (tp : TPState) (so : SOut)
    (h : ∀ j, matchAt tp.textBuffer THINKING_START_TAG j = false) :
    processBeforeThinking tp so =
      (if tp.textBuffer.length ≤ THINKING_START_TAG.length then (tp, so)
       else
        ({ (emitText tp so
             (tp.textBuffer.take (tp.textBuffer.length - THINKING_START_TAG.length))).1 with
           textBuffer :=
             tp.textBuffer.drop (tp.textBuffer.length - THINKING_START_TAG.length) },
         (emitText tp so
           (tp.textBuffer.take (tp.textBuffer.length - THINKING_START_TAG.length))).2)) := by
  unfold processBeforeThinking
  rw [indexOfFrom_of_no_match (fun j _ => h j)]
  by_cases hlen : tp.textBuffer.length ≤ THINKING_START_TAG.length
  · rw [if_pos hlen]
    have h0 : tp.textBuffer.length - THINKING_START_TAG.length = 0 := by omega
    simp [h0]
  · rw [if_neg hlen]
    have h0 : 0 < tp.textBuffer.length - THINKING_START_TAG.length := by omega
    simp [h0]

theorem processInside_notag (tp : TPState) (so : SOut)
    (h : ∀ j, matchAt tp.textBuffer THINKING_END_TAG j = false) :
    processInsideThinking tp so =
      (if tp.textBuffer.length ≤ THINKING_END_TAG.length then (tp, so)
       else
        ({ (emitThinking tp so
             (tp.textBuffer.take (tp.textBuffer.length - THINKING_END_TAG.length))).1 with
           textBuffer :=
             tp.textBuffer.drop (tp.textBuffer.length - THINKING_END_TAG.length) },
         (emitThinking tp so
           (tp.textBuffer.take (tp.textBuffer.length - THINKING_END_TAG.length))).2)) := by
  unfold processInsideThinking
  rw [indexOfFrom_of_no_match (fun j _ => h j)]
  by_cases hlen : tp.textBuffer.length ≤ THINKING_END_TAG.length
  · rw [if_pos hlen]
    have h0 : tp.textBuffer.length - THINKING_END_TAG.length = 0 := by omega
    simp [h0]
  · rw [if_neg hlen]
    have h0 : 0 < tp.textBuffer.length - THINKING_END_TAG.length := by omega
    simp [h0]

theorem pcLoop_before_short (tp : TPState) (so : SOut) (g : ℕ)
    (h1 : tp.inThinking = false) (h2 : tp.thinkingExtracted = false)
    (h3 : ∀ j, matchAt tp.textBuffer THINKING_START_TAG j = false)
    (h4 : tp.textBuffer.length ≤ THINKING_START_TAG.length) :
    pcLoop (g + 1) tp so = (tp, so) := by
  have hpb := processBefore_notag tp so h3
  rw [if_pos h4] at hpb
  by_cases hb : tp.textBuffer = []
  · simp [pcLoop, hb]
  · simp [pcLoop, hb, h1, h2, hpb]


theorem pcLoop_before_long (tp : TPState) (so : SOut) (f : ℕ)
    (h1 : tp.inThinking = false) (h2 : tp.thinkingExtracted = false)
    (h3 : ∀ j, matchAt tp.textBuffer THINKING_START_TAG j = false)
    (h4 : THINKING_START_TAG.length < tp.textBuffer.length) :
    pcLoop (f + 2) tp so =
      ({ (emitText tp so
           (tp.textBuffer.take (tp.textBuffer.length - THINKING_START_TAG.length))).1 with
         textBuffer :=
           tp.textBuffer.drop (tp.textBuffer.length - THINKING_START_TAG.length) },
       (emitText tp so
         (tp.textBuffer.take (tp.textBuffer.length - THINKING_START_TAG.length))).2) := by
  have hTAGpos : 0 < THINKING_START_TAG.length := by decide
  have hb : tp.textBuffer ≠ [] := by
    intro hnil
    rw [hnil] at h4
    simp only [List.length_nil] at h4
    omega
  have hpb := processBefore_notag tp so h3
  rw [if_neg (by omega)] at hpb
  show pcLoop ((f + 1) + 1) tp so = _
  simp only [pcLoop]
  rw [if_neg hb]
  simp only [h1, h2, Bool.false_eq_true, not_false_eq_true, and_self, if_true, hpb]
  have hfields := emitText_fields tp so
    (tp.textBuffer.take (tp.textBuffer.length - THINKING_START_TAG.length))
  have hdlen : (tp.textBuffer.drop (tp.textBuffer.length - THINKING_START_TAG.length)).length =
      THINKING_START_TAG.length := by
    rw [List.length_drop]
    omega
  have hdne : tp.textBuffer.drop (tp.textBuffer.length - THINKING_START_TAG.length) ≠ [] := by
    intro hnil
    rw [hnil] at hdlen
    simp only [List.length_nil] at hdlen
    omega
  have hin1 := hfields.2.1.trans h1
  have hex1 := hfields.2.2.1.trans h2
  rw [if_neg hdne]
  simp only [hin1, hex1, Bool.false_eq_true, if_false]
  rw [if_neg hdne]
  have hnotge : ¬ (tp.textBuffer.drop
      (tp.textBuffer.length - THINKING_START_TAG.length)).length ≥ tp.textBuffer.length := by
    rw [hdlen]
    omega
  rw [if_neg hnotge]
  have h3b : ∀ j, matchAt (tp.textBuffer.drop
      (tp.textBuffer.length - THINKING_START_TAG.length)) THINKING_START_TAG j = false := by
    intro j
    rw [matchAt_dropped]
    exact h3 _
  have hidx2 : indexOfFrom
      (tp.textBuffer.drop (tp.textBuffer.length - THINKING_START_TAG.length))
      THINKING_START_TAG 0 = none :=
    indexOfFrom_of_no_match (fun j _ => h3b j)
  have hsz : (tp.textBuffer.drop (tp.textBuffer.length - THINKING_START_TAG.length)).length -
      THINKING_START_TAG.length = 0 := by
    rw [hdlen]
    omega
  simp only [processBeforeThinking, hidx2, hsz, Nat.lt_irrefl, if_false,
    not_false_eq_true, and_self, if_true, hdne, Bool.false_eq_true, ge_iff_le, le_refl,
    ite_true, ite_false, if_neg hdne]

theorem pcLoop_inside_short (tp : TPState) (so : SOut) (g : ℕ)
    (h1 : tp.inThinking = true) (h2 : tp.thinkingExtracted = false)
    (h3 : ∀ j, matchAt tp.textBuffer THINKING_END_TAG j = false)
    (h4 : tp.textBuffer.length ≤ THINKING_END_TAG.length) :
    pcLoop (g + 1) tp so = (tp, so) := by
  have hpi := processInside_notag tp so h3
  rw [if_pos h4] at hpi
  by_cases hb : tp.textBuffer = []
  · simp [pcLoop, hb]
  · simp [pcLoop, hb, h1, h2, hpi]

theorem pcLoop_inside_long (tp : TPState) (so : SOut) (f : ℕ)
    (h1 : tp.inThinking = true) (h2 : tp.thinkingExtracted = false)
    (h3 : ∀ j, matchAt tp.textBuffer THINKING_END_TAG j = false)
    (h4 : THINKING_END_TAG.length < tp.textBuffer.length) :
    pcLoop (f + 2) tp so =
      ({ (emitThinking tp so
           (tp.textBuffer.take (tp.textBuffer.length - THINKING_END_TAG.length))).1 with
         textBuffer :=
           tp.textBuffer.drop (tp.textBuffer.length - THINKING_END_TAG.length) },
       (emitThinking tp so
         (tp.textBuffer.take (tp.textBuffer.length - THINKING_END_TAG.length))).2) := by
  have hTAGpos : 0 < THINKING_END_TAG.length := by decide
  have hb : tp.textBuffer ≠ [] := by
    intro hnil
    rw [hnil] at h4
    simp only [List.length_nil] at h4
    omega
  have hpi := processInside_notag tp so h3
  rw [if_neg (by omega)] at hpi
  have hfields := emitThinking_fields tp so
    (tp.textBuffer.take (tp.textBuffer.length - THINKING_END_TAG.length))
  have hdlen : (tp.textBuffer.drop (tp.textBuffer.length - THINKING_END_TAG.length)).length =
      THINKING_END_TAG.length := by
    rw [List.length_drop]
    omega
  have hdne : tp.textBuffer.drop (tp.textBuffer.length - THINKING_END_TAG.length) ≠ [] := by
    intro hnil
    rw [hnil] at hdlen
    simp only [List.length_nil] at hdlen
    omega
  have hin1 := hfields.2.1.trans h1
  have hex1 := hfields.2.2.1.trans h2
  have hnotge : ¬ (tp.textBuffer.drop
      (tp.textBuffer.length - THINKING_END_TAG.length)).length ≥ tp.textBuffer.length := by
    rw [hdlen]
    omega
  have h3b : ∀ j, matchAt (tp.textBuffer.drop
      (tp.textBuffer.length - THINKING_END_TAG.length)) THINKING_END_TAG j = false := by
    intro j
    rw [matchAt_dropped]
    exact h3 _
  have hidx2 : indexOfFrom
      (tp.textBuffer.drop (tp.textBuffer.length - THINKING_END_TAG.length))
      THINKING_END_TAG 0 = none :=
    indexOfFrom_of_no_match (fun j _ => h3b j)
  have hsz : (tp.textBuffer.drop (tp.textBuffer.length - THINKING_END_TAG.length)).length -
      THINKING_END_TAG.length = 0 := by
    rw [hdlen]
    omega
  show pcLoop ((f + 1) + 1) tp so = _
  simp only [pcLoop]
  rw [if_neg hb]
  simp only [h1, not_true_eq_false, false_and, Bool.false_eq_true, if_false, if_true, hpi]
  simp only [processInsideThinking, hidx2, hsz, Nat.lt_irrefl, if_false,
    not_false_eq_true, and_self, if_true, hdne, Bool.false_eq_true, ge_iff_le, le_refl,
    ite_true, ite_false, if_neg hdne, hin1, hex1, not_true_eq_false, false_and,
    hnotge]
  rw [if_neg hb]

/-- Claim C4 (amended): when `processChunk` does not find the complete open
marker in state BEFORE (resp. close marker in state INSIDE), it withholds
the last `min(length, marker-length)` characters of the buffered text — the
full marker length, not marker-length − 1 — and flushes the preceding
`length - min(length, marker-length)` characters as answer (resp. thinking)
content through `emitText` (resp. `emitThinking`). -/
theorem claim_C4_withhold_marker_length :
    (∀ (tp : TPState) (so : SOut) (chunk : Str),
      tp.inThinking = false → tp.thinkingExtracted = false →
      containsSub (tp.textBuffer ++ chunk) THINKING_START_TAG = false →
      processChunk tp so chunk =
        (if (tp.textBuffer ++ chunk).length ≤ THINKING_START_TAG.length then
          ({ tp with textBuffer := tp.textBuffer ++ chunk }, so)
         else
          ({ (emitText { tp with textBuffer := tp.textBuffer ++ chunk } so
               ((tp.textBuffer ++ chunk).take
                 ((tp.textBuffer ++ chunk).length - THINKING_START_TAG.length))).1 with
             textBuffer := (tp.textBuffer ++ chunk).drop
               ((tp.textBuffer ++ chunk).length - THINKING_START_TAG.length) },
           (emitText { tp with textBuffer := tp.textBuffer ++ chunk } so
             ((tp.textBuffer ++ chunk).take
               ((tp.textBuffer ++ chunk).length - THINKING_START_TAG.length))).2))) ∧
    (∀ (tp : TPState) (so : SOut) (chunk : Str),
      tp.inThinking = true → tp.thinkingExtracted = false →
      containsSub (tp.textBuffer ++ chunk) THINKING_END_TAG = false →
      processChunk tp so chunk =
        (if (tp.textBuffer ++ chunk).length ≤ THINKING_END_TAG.length then
          ({ tp with textBuffer := tp.textBuffer ++ chunk }, so)
         else
          ({ (emitThinking { tp with textBuffer := tp.textBuffer ++ chunk } so
               ((tp.textBuffer ++ chunk).take
                 ((tp.textBuffer ++ chunk).length - THINKING_END_TAG.length))).1 with
             textBuffer := (tp.textBuffer ++ chunk).drop
               ((tp.textBuffer ++ chunk).length - THINKING_END_TAG.length) },
           (emitThinking { tp with textBuffer := tp.textBuffer ++ chunk } so
             ((tp.textBuffer ++ chunk).take
               ((tp.textBuffer ++ chunk).length - THINKING_END_TAG.length))).2))) := by
  constructor
  · intro tp so chunk h1 h2 h3
    have hm : ∀ j, matchAt (tp.textBuffer ++ chunk) THINKING_START_TAG j = false :=
      containsSub_false_match (by decide) h3
    rw [processChunk]
    by_cases hlen : (tp.textBuffer ++ chunk).length ≤ THINKING_START_TAG.length
    · rw [if_pos hlen]
      exact pcLoop_before_short _ so (tp.textBuffer ++ chunk).length h1 h2 hm hlen
    · rw [if_neg hlen]
      have hpos : 1 ≤ (tp.textBuffer ++ chunk).length := by
        have : 0 < THINKING_START_TAG.length := by decide
        omega
      have hfe : (tp.textBuffer ++ chunk).length + 1 =
          ((tp.textBuffer ++ chunk).length - 1) + 2 := by omega
      rw [hfe]
      exact pcLoop_before_long _ so ((tp.textBuffer ++ chunk).length - 1) h1 h2 hm
        (show THINKING_START_TAG.length < (tp.textBuffer ++ chunk).length by omega)
  · intro tp so chunk h1 h2 h3
    have hm : ∀ j, matchAt (tp.textBuffer ++ chunk) THINKING_END_TAG j = false :=
      containsSub_false_match (by decide) h3
    rw [processChunk]
    by_cases hlen : (tp.textBuffer ++ chunk).length ≤ THINKING_END_TAG.length
    · rw [if_pos hlen]
      exact pcLoop_inside_short _ so (tp.textBuffer ++ chunk).length h1 h2 hm hlen
    · rw [if_neg hlen]
      have hpos : 1 ≤ (tp.textBuffer ++ chunk).length := by
        have : 0 < THINKING_END_TAG.length := by decide
        omega
      have hfe : (tp.textBuffer ++ chunk).length + 1 =
          ((tp.textBuffer ++ chunk).length - 1) + 2 := by omega
      rw [hfe]
      exact pcLoop_inside_long _ so ((tp.textBuffer ++ chunk).length - 1) h1 h2 hm
        (show THINKING_END_TAG.length < (tp.textBuffer ++ chunk).length by omega)

/-- Counterexample to C4 as stated: on the tag-free 11-character chunk
`abcdefghijk` in state BEFORE, the extractor withholds the last 10
characters (`THINKING_START_TAG.length`), not the claimed
marker-length − 1 = 9. -/
theorem claim_C4_counterexample :
    containsSub (s2l "abcdefghijk") THINKING_START_TAG = false ∧
    (processChunk tpInit soInit (s2l "abcdefghijk")).1.textBuffer = s2l "bcdefghijk" ∧
    (processChunk tpInit soInit (s2l "abcdefghijk")).1.textBuffer.length =
      THINKING_START_TAG.length ∧
    THINKING_START_TAG.length - 1 = 9 ∧
    (processChunk tpInit soInit (s2l "abcdefghijk")).1.textBuffer.length ≠ 9 := by
  decide

/-- Witness for the amended C4: both branches applied at concrete states. -/
theorem claim_C4_witness :
    (tpInit.inThinking = false ∧ tpInit.thinkingExtracted = false ∧
      containsSub (tpInit.textBuffer ++ s2l "hello world!") THINKING_START_TAG = false ∧
      (processChunk tpInit soInit (s2l "hello world!")).1.textBuffer = s2l "llo world!" ∧
      answerText (processChunk tpInit soInit (s2l "hello world!")).2 = s2l "he") ∧
    ((⟨[], true, false, some 0, none⟩ : TPState).inThinking = true ∧
      (⟨[], true, false, some 0, none⟩ : TPState).thinkingExtracted = false ∧
      containsSub ((⟨[], true, false, some 0, none⟩ : TPState).textBuffer ++
        s2l "more thought text") THINKING_END_TAG = false ∧
      (processChunk ⟨[], true, false, some 0, none⟩ ⟨[OutBlock.thinking (s2l "x")], []⟩
        (s2l "more thought text")).1.textBuffer = s2l "hought text" ∧
      thinkingText (processChunk ⟨[], true, false, some 0, none⟩
        ⟨[OutBlock.thinking (s2l "x")], []⟩ (s2l "more thought text")).2 = s2l "xmore t") := by
  have h1 := claim_C4_withhold_marker_length.1 tpInit soInit (s2l "hello world!")
    rfl rfl (by decide)
  have h2 := claim_C4_withhold_marker_length.2 ⟨[], true, false, some 0, none⟩
    ⟨[OutBlock.thinking (s2l "x")], []⟩ (s2l "more thought text") rfl rfl (by decide)
  refine ⟨⟨rfl, rfl, by decide, ?_, ?_⟩, ⟨rfl, rfl, by decide, ?_, ?_⟩⟩
  · rw [h1]; decide
  · rw [h1]; decide
  · rw [h2]; decide
  · rw [h2]; decide

/-! ## History entries and history management (transform / history sources) -/

structure KiroToolUse where
  name : Str
  toolUseId : Str
  input : JsVal

structure KiroToolResultContent where
  text : Str

structure KiroToolResult where
  content : List KiroToolResultContent
  status : Str
  toolUseId : Str

structure KiroToolSpec where
  name : Str
  description : Str
  inputSchemaJson : JsVal

structure KiroImage where
  format : Str
  bytes : Str

structure KiroUserInputMessageContext where
  toolResults : Option (List KiroToolResult)
  tools : Option (List KiroToolSpec)

/-- `KiroUserInputMessage`; the constant `origin: "AI_EDITOR"` is added by
the serializer. -/
structure KiroUserInputMessage where
  content : Str
  modelId : Str
  images : Option (List KiroImage)
  userInputMessageContext : Option KiroUserInputMessageContext

structure KiroAssistantResponseMessage where
  content : Str
  toolUses : Option (List KiroToolUse)

/-- `KiroHistoryEntry`: both fields are optional in the TypeScript
interface; the code constructs entries with exactly one of them present. -/
structure KiroHistoryEntry where
  userInputMessage : Option KiroUserInputMessage
  assistantResponseMessage : Option KiroAssistantResponseMessage

/-- Truthiness of `m.assistantResponseMessage?.toolUses` (an array, even
empty, is truthy in JS: presence is what counts). -/
def hasToolUses (m : KiroHistoryEntry) : Bool :=
  match m.assistantResponseMessage with
  | some a => a.toolUses.isSome
  | none => false

/-- Truthiness of `m.userInputMessage?.userInputMessageContext?.toolResults`. -/
def hasToolResults (m : KiroHistoryEntry) : Bool :=
  match m.userInputMessage with
  | some u =>
    (match u.userInputMessageContext with
     | some c => c.toolResults.isSome
     | none => false)
  | none => false

def nextHasToolResults (rest : List KiroHistoryEntry) : Bool :=
  match rest.head? with
  | some nxt => hasToolResults nxt
  | none => false

/-- The filtering loop of `sanitizeHistory` (part_004 lines 8-21).  The
boolean argument tracks whether the last retained entry carries tool uses
(`result[result.length - 1]?.assistantResponseMessage?.toolUses`). -/
def sanitizeCore : Bool → List KiroHistoryEntry → List KiroHistoryEntry
  | _, [] => []
  | prevATU, m :: rest =>
    if hasToolUses m then
      (if nextHasToolResults rest then m :: sanitizeCore true rest
       else sanitizeCore prevATU rest)
    else if hasToolResults m then
      (if prevATU then m :: sanitizeCore false rest else sanitizeCore prevATU rest)
    else m :: sanitizeCore false rest

/-- `sanitizeHistory` (part_004 lines 7-27): the filtering loop plus the
final first-entry check that discards everything when the head is not a
plain user turn. -/
def sanitizeHistory (history : List KiroHistoryEntry) : List KiroHistoryEntry :=
  let result := sanitizeCore false history
  match result.head? with
  | some first =>
    if first.userInputMessage.isNone ∨ hasToolResults first then [] else result
  | none => result

/-- Ids declared by an entry's tool uses (falsy, i.e. empty, ids are
skipped, as by `if (tu.toolUseId)`). -/
def entryToolUseIds (e : KiroHistoryEntry) : List Str :=
  match e.assistantResponseMessage with
  | some a => (a.toolUses.getD []).filterMap
      (fun tu => if tu.toolUseId ≠ [] then some tu.toolUseId else none)
  | none => []

def entryToolResults (e : KiroHistoryEntry) : Option (List KiroToolResult) :=
  match e.userInputMessage with
  | some u =>
    (match u.userInputMessageContext with
     | some c => c.toolResults
     | none => none)
  | none => none

def syntheticToolCallEntry (orphaned : List KiroToolResult) : KiroHistoryEntry :=
  ⟨none, some ⟨s2l "Tool calls were made.",
    some (orphaned.map (fun tr => ⟨s2l "unknown_tool", tr.toolUseId, JsVal.obj []⟩))⟩⟩

def injectGo : List Str → List KiroHistoryEntry → List KiroHistoryEntry
  | _, [] => []
  | ids, e :: rest =>
    match entryToolResults e with
    | some trs =>
      let orphaned := trs.filter (fun tr => ¬ ids.contains tr.toolUseId)
      if orphaned.length > 0 then
        syntheticToolCallEntry orphaned :: e ::
          injectGo (ids ++ orphaned.map (fun tr => tr.toolUseId)) rest
      else e :: injectGo ids rest
    | none => e :: injectGo ids rest

/-- `injectSyntheticToolCalls` (part_004 lines 29-54). -/
def injectSyntheticToolCalls (history : List KiroHistoryEntry) : List KiroHistoryEntry :=
  injectGo (history.foldl (fun acc e => acc ++ entryToolUseIds e) []) history

/-! JSON serialization of history entries (`JSON.stringify`), used for the
byte-budget computation of `truncateHistory`.  Object fields follow the
construction order of the source. -/

def toolResultToJson (tr : KiroToolResult) : JsVal :=
  JsVal.obj [(s2l "content", JsVal.arr (tr.content.map
      (fun c => JsVal.obj [(s2l "text", JsVal.str c.text)]))),
    (s2l "status", JsVal.str tr.status),
    (s2l "toolUseId", JsVal.str tr.toolUseId)]

def toolUseToJson (tu : KiroToolUse) : JsVal :=
  JsVal.obj [(s2l "name", JsVal.str tu.name),
    (s2l "toolUseId", JsVal.str tu.toolUseId),
    (s2l "input", tu.input)]

def toolSpecToJson (ts : KiroToolSpec) : JsVal :=
  JsVal.obj [(s2l "toolSpecification",
    JsVal.obj [(s2l "name", JsVal.str ts.name),
      (s2l "description", JsVal.str ts.description),
      (s2l "inputSchema", JsVal.obj [(s2l "json", ts.inputSchemaJson)])])]

def imageToJson (img : KiroImage) : JsVal :=
  JsVal.obj [(s2l "format", JsVal.str img.format),
    (s2l "source", JsVal.obj [(s2l "bytes", JsVal.str img.bytes)])]

def uimcToJson (c : KiroUserInputMessageContext) : JsVal :=
  JsVal.obj ((match c.toolResults with
      | some trs => [(s2l "toolResults", JsVal.arr (trs.map toolResultToJson))]
      | none => []) ++
    (match c.tools with
      | some ts => [(s2l "tools", JsVal.arr (ts.map toolSpecToJson))]
      | none => []))

def uimToJson (u : KiroUserInputMessage) : JsVal :=
  JsVal.obj ([(s2l "content", JsVal.str u.content),
    (s2l "modelId", JsVal.str u.modelId),
    (s2l "origin", JsVal.str (s2l "AI_EDITOR"))] ++
    (match u.images with
      | some imgs => [(s2l "images", JsVal.arr (imgs.map imageToJson))]
      | none => []) ++
    (match u.userInputMessageContext with
      | some c => [(s2l "userInputMessageContext", uimcToJson c)]
      | none => []))

def armToJson (a : KiroAssistantResponseMessage) : JsVal :=
  JsVal.obj ([(s2l "content", JsVal.str a.content)] ++
    (match a.toolUses with
      | some tus => [(s2l "toolUses", JsVal.arr (tus.map toolUseToJson))]
      | none => []))

def entryToJson (e : KiroHistoryEntry) : JsVal :=
  JsVal.obj ((match e.userInputMessage with
      | some u => [(s2l "userInputMessage", uimToJson u)]
      | none => []) ++
    (match e.assistantResponseMessage with
      | some a => [(s2l "assistantResponseMessage", armToJson a)]
      | none => []))

/-- `JSON.stringify(entries)` for the size computation. -/
def stringifyHistory (l : List KiroHistoryEntry) : Str :=
  jsonStringify (JsVal.arr (l.map entryToJson))

def dropLeadingNonUser (l : List KiroHistoryEntry) : List KiroHistoryEntry :=
  l.dropWhile (fun e => ¬ e.userInputMessage.isSome)

/-- The size loop of `truncateHistory` (part_004 lines 59-64).  Each
iteration shrinks the list by at least one entry, so fuel equal to the list
length never runs out before the loop condition fails. -/
def truncateLoop : ℕ → List KiroHistoryEntry → ℕ → List KiroHistoryEntry
  | 0, s, _ => s
  | fuel + 1, s, limit =>
    if (stringifyHistory s).length > limit ∧ s.length > 2 then
      truncateLoop fuel (sanitizeHistory (dropLeadingNonUser (s.drop 1))) limit
    else s

/-- `truncateHistory` (part_004 lines 56-66). -/
def truncateHistory (history : List KiroHistoryEntry) (limit : ℕ) : List KiroHistoryEntry :=
  let s0 := sanitizeHistory history
  injectSyntheticToolCalls (truncateLoop s0.length s0 limit)

/-- `extractToolNamesFromHistory` (part_004 lines 68-76), as a list with
membership standing for the JS `Set`. -/
def extractToolNamesFromHistory (history : List KiroHistoryEntry) : List Str :=
  history.foldl (fun acc e =>
    acc ++ (match e.assistantResponseMessage with
      | some a => (a.toolUses.getD []).filterMap
          (fun tu => if tu.name ≠ [] then some tu.name else none)
      | none => [])) []

/-- `addPlaceholderTools` (part_004 lines 78-94). -/
def addPlaceholderTools (tools : List KiroToolSpec) (history : List KiroHistoryEntry) :
    List KiroToolSpec :=
  let historyNames := extractToolNamesFromHistory history
  if historyNames.isEmpty then tools
  else
    let existing := tools.filterMap (fun t => if t.name ≠ [] then some t.name else none)
    let missing := historyNames.filter (fun n => ¬ existing.contains n)
    if missing.isEmpty then tools
    else tools ++ missing.map (fun name =>
      ⟨name, s2l "Tool", JsVal.obj [(s2l "type", JsVal.str (s2l "object")),
        (s2l "properties", JsVal.obj [])]⟩)

/-- An entry is a single turn: not both a user and an assistant message, as
every entry the code constructs (the data model tags an entry as one or the
other). -/
def wfEntry (e : KiroHistoryEntry) : Bool :=
  ¬ (e.userInputMessage.isSome ∧ e.assistantResponseMessage.isSome)

/-- Pairing invariant of a sanitized history: every tool-use turn is
immediately followed by a tool-result turn, and every tool-result turn
immediately follows one (the flag carries whether the previous entry had
tool uses). -/
def gInv : Bool → List KiroHistoryEntry → Bool
  | _, [] => true
  | p, e :: r =>
    if hasToolUses e then nextHasToolResults r && gInv true r
    else if hasToolResults e then p && gInv false r
    else gInv false r

def headOkB : List KiroHistoryEntry → Bool
  | [] => true
  | e :: _ => e.userInputMessage.isSome && ¬ hasToolResults e

theorem hasToolUses_false_of_wf {e : KiroHistoryEntry} (hwf : wfEntry e = true)
    (htr : hasToolResults e = true) : hasToolUses e = false := by
  rw [wfEntry] at hwf
  rw [hasToolResults] at htr
  rw [hasToolUses]
  cases hu : e.userInputMessage with
  | none => rw [hu] at htr; cases htr
  | some u =>
    cases ha : e.assistantResponseMessage with
    | none => rfl
    | some a =>
      exfalso
      rw [hu, ha] at hwf
      simp at hwf

theorem sanitizeCore_sublist : ∀ (p : Bool) (h : List KiroHistoryEntry),
    (sanitizeCore p h).Sublist h := by
  intro p h
  induction h generalizing p with
  | nil => exact List.Sublist.refl _
  | cons m rest ih =>
    simp only [sanitizeCore]
    split
    · split
      · exact List.Sublist.cons₂ m (ih true)
      · exact List.Sublist.cons m (ih p)
    · split
      · split
        · exact List.Sublist.cons₂ m (ih false)
        · exact List.Sublist.cons m (ih p)
      · exact List.Sublist.cons₂ m (ih false)

theorem sanitizeCore_gInv : ∀ (h : List KiroHistoryEntry) (p : Bool),
    (∀ e ∈ h, wfEntry e = true) → gInv p (sanitizeCore p h) = true := by
  intro h
  induction h with
  | nil => intro p _; rfl
  | cons m rest ih =>
    intro p hwf
    have hwfrest : ∀ e ∈ rest, wfEntry e = true :=
      fun e he => hwf e (List.mem_cons_of_mem _ he)
    simp only [sanitizeCore]
    by_cases h1 : hasToolUses m = true
    · rw [if_pos h1]
      by_cases h2 : nextHasToolResults rest = true
      · rw [if_pos h2]
        cases hr : rest with
        | nil => rw [hr] at h2; cases h2
        | cons nxt rest2 =>
          rw [hr] at h2
          have hnr : hasToolResults nxt = true := h2
          have hnu : hasToolUses nxt = false :=
            hasToolUses_false_of_wf
              (hwfrest nxt (hr ▸ List.mem_cons_self _ _)) hnr
          have hcore : sanitizeCore true (nxt :: rest2) =
              nxt :: sanitizeCore false rest2 := by
            simp only [sanitizeCore, hnu, Bool.false_eq_true, if_false, hnr, if_true]
          rw [gInv, if_pos h1, hcore]
          have hg2 : gInv true (sanitizeCore true (nxt :: rest2)) = true := by
            rw [← hr]
            exact ih true hwfrest
          rw [hcore] at hg2
          rw [Bool.and_eq_true]
          refine ⟨?_, hg2⟩
          rw [nextHasToolResults]
          simpa using hnr
      · rw [if_neg h2]
        exact ih p hwfrest
    · rw [if_neg h1]
      by_cases h2 : hasToolResults m = true
      · rw [if_pos h2]
        by_cases h3 : p = true
        · subst h3
          rw [if_pos rfl, gInv, if_neg h1, if_pos h2]
          simpa using ih false hwfrest
        · rw [if_neg h3]
          exact ih p hwfrest
      · rw [if_neg h2]
        rw [gInv, if_neg h1, if_neg h2]
        exact ih false hwfrest

theorem gInv_fixpoint : ∀ (l : List KiroHistoryEntry) (p : Bool),
    gInv p l = true → sanitizeCore p l = l := by
  intro l
  induction l with
  | nil => intro p _; rfl
  | cons e r ih =>
    intro p hg
    rw [gInv] at hg
    simp only [sanitizeCore]
    by_cases h1 : hasToolUses e = true
    · rw [if_pos h1] at hg ⊢
      rw [Bool.and_eq_true] at hg
      obtain ⟨hnr, hg2⟩ := hg
      rw [if_pos hnr, ih true hg2]
    · rw [if_neg h1] at hg ⊢
      by_cases h2 : hasToolResults e = true
      · rw [if_pos h2] at hg ⊢
        rw [Bool.and_eq_true] at hg
        obtain ⟨hp, hg2⟩ := hg
        rw [if_pos hp, ih false hg2]
      · rw [if_neg h2] at hg ⊢
        rw [ih false hg]

theorem sanitizeHistory_sublist (h : List KiroHistoryEntry) :
    (sanitizeHistory h).Sublist h := by
  rw [sanitizeHistory]
  cases hc : (sanitizeCore false h).head? with
  | none => simpa using sanitizeCore_sublist false h
  | some first =>
    simp only
    split
    · exact List.nil_sublist h
    · exact sanitizeCore_sublist false h

theorem sanitizeHistory_gInv (h : List KiroHistoryEntry)
    (hwf : ∀ e ∈ h, wfEntry e = true) : gInv false (sanitizeHistory h) = true := by
  rw [sanitizeHistory]
  cases hc : (sanitizeCore false h).head? with
  | none => simpa using sanitizeCore_gInv h false hwf
  | some first =>
    simp only
    split
    · rfl
    · exact sanitizeCore_gInv h false hwf

theorem sanitizeHistory_headOk (h : List KiroHistoryEntry) :
    headOkB (sanitizeHistory h) = true := by
  rw [sanitizeHistory]
  cases hc : (sanitizeCore false h).head? with
  | none =>
    have hnil : sanitizeCore false h = [] := List.head?_eq_none_iff.mp hc
    rw [hnil]
    rfl
  | some first =>
    simp only
    split
    · rfl
    · next hbad =>
      push_neg at hbad
      obtain ⟨h1, h2⟩ := hbad
      cases hl : sanitizeCore false h with
      | nil => rfl
      | cons a t =>
        rw [hl] at hc
        have ha : a = first := by simpa using hc
        subst ha
        rw [headOkB, Bool.and_eq_true]
        refine ⟨?_, ?_⟩
        · cases hu : a.userInputMessage with
          | none => rw [hu] at h1; simp at h1
          | some u => rfl
        · simp [h2]

theorem sanitizeHistory_idem (h : List KiroHistoryEntry)
    (hwf : ∀ e ∈ h, wfEntry e = true) :
    sanitizeHistory (sanitizeHistory h) = sanitizeHistory h := by
  have hg := sanitizeHistory_gInv h hwf
  have hfix := gInv_fixpoint _ false hg
  have hhead := sanitizeHistory_headOk h
  rw [sanitizeHistory, hfix]
  cases hc : (sanitizeHistory h).head? with
  | none => rfl
  | some first =>
    simp only
    cases hl : sanitizeHistory h with
    | nil => simp [hl] at hc
    | cons a t =>
      rw [hl] at hc
      have ha : a = first := by simpa using hc
      subst ha
      rw [hl, headOkB, Bool.and_eq_true] at hhead
      obtain ⟨hh1, hh2⟩ := hhead
      rw [if_neg]
      rintro (hx | hx)
      · cases hu : a.userInputMessage with
        | none => rw [hu] at hh1; simp at hh1
        | some u => rw [hu] at hx; simp at hx
      · simp [hx] at hh2

/-- A plain turn (neither tool uses nor tool results) is never dropped by
the filtering loop. -/
theorem sanitizeCore_keeps_plain : ∀ (h : List KiroHistoryEntry) (p : Bool)
    (e : KiroHistoryEntry), e ∈ h → hasToolUses e = false →
    hasToolResults e = false → e ∈ sanitizeCore p h := by
  intro h
  induction h with
  | nil => intro p e he _ _; cases he
  | cons m rest ih =>
    intro p e he hu hr
    rcases List.mem_cons.mp he with rfl | he
    · simp [sanitizeCore, hu, hr]
    · show e ∈ (if hasToolUses m then
          (if nextHasToolResults rest then m :: sanitizeCore true rest
           else sanitizeCore p rest)
        else if hasToolResults m then
          (if p then m :: sanitizeCore false rest else sanitizeCore p rest)
        else m :: sanitizeCore false rest)
      split
      · split
        · exact List.mem_cons_of_mem _ (ih true e he hu hr)
        · exact ih p e he hu hr
      · split
        · split
          · exact List.mem_cons_of_mem _ (ih false e he hu hr)
          · exact ih p e he hu hr
        · exact List.mem_cons_of_mem _ (ih false e he hu hr)

/-- A plain user turn. -/
def exU0 : KiroHistoryEntry :=
  ⟨some ⟨s2l "hello", s2l "model", none, none⟩, none⟩

/-- An assistant turn carrying one tool use with id `a`. -/
def exA1 : KiroHistoryEntry :=
  ⟨none, some ⟨s2l "calling tool",
    some [⟨s2l "get_weather", s2l "a", JsVal.obj []⟩]⟩⟩

/-- A user turn carrying one tool result with id `b` (not matching `a`). -/
def exUr : KiroHistoryEntry :=
  ⟨some ⟨s2l "tool results", s2l "model", none,
    some ⟨some [⟨[⟨s2l "ok"⟩], s2l "success", s2l "b"⟩], none⟩⟩, none⟩

/-- Counterexample to C6 as stated: the assistant turn `exA1` declares the
tool-use id `a` while the immediately following user turn `exUr` carries a
single tool result with the different id `b`, yet `sanitizeHistory` keeps
the whole history unchanged — tool-use and tool-result ids are never
compared, so "matching" results are not required for retention. -/
theorem claim_C6_counterexample :
    entryToolUseIds exA1 = [s2l "a"] ∧
    ((entryToolResults exUr).getD []).map (fun tr => tr.toolUseId) = [s2l "b"] ∧
    s2l "a" ≠ s2l "b" ∧
    sanitizeHistory [exU0, exA1, exUr] = [exU0, exA1, exUr] :=
  ⟨rfl, rfl, by decide, rfl⟩

/-- C6 (amended: ids are never compared, so "matching" is dropped): for
every history of single-sided entries, `sanitizeHistory` returns a
subsequence of the input in which every retained tool-use turn is
immediately followed by a tool-result turn, every retained tool-result turn
immediately follows a retained tool-use turn, plain turns are never dropped
by the filtering loop, and a non-empty result starts with a user turn
carrying no tool results. -/
theorem claim_C6_sanitize_invariants (h : List KiroHistoryEntry)
    (hwf : ∀ e ∈ h, wfEntry e = true) :
    (sanitizeHistory h).Sublist h ∧
    gInv false (sanitizeHistory h) = true ∧
    headOkB (sanitizeHistory h) = true ∧
    (∀ e ∈ h, hasToolUses e = false → hasToolResults e = false →
      e ∈ sanitizeCore false h) :=
  ⟨sanitizeHistory_sublist h, sanitizeHistory_gInv h hwf, sanitizeHistory_headOk h,
   fun e he hu hr => sanitizeCore_keeps_plain h false e he hu hr⟩

/-- Witness for C6 at a concrete three-entry history. -/
theorem claim_C6_witness :
    (∀ e ∈ [exU0, exA1, exUr], wfEntry e = true) ∧
    ((sanitizeHistory [exU0, exA1, exUr]).Sublist [exU0, exA1, exUr] ∧
     gInv false (sanitizeHistory [exU0, exA1, exUr]) = true ∧
     headOkB (sanitizeHistory [exU0, exA1, exUr]) = true ∧
     (∀ e ∈ [exU0, exA1, exUr], hasToolUses e = false → hasToolResults e = false →
       e ∈ sanitizeCore false [exU0, exA1, exUr])) :=
  ⟨by decide, claim_C6_sanitize_invariants [exU0, exA1, exUr] (by decide)⟩

/-- The size loop of `truncateHistory`: with fuel at least `length − 2` it
runs to completion and returns a sanitize-fixed subsequence that either
fits the byte budget or has at most two entries. -/
theorem truncateLoop_spec : ∀ (fuel : ℕ) (s : List KiroHistoryEntry) (limit : ℕ),
    (∀ e ∈ s, wfEntry e = true) → sanitizeHistory s = s → s.length ≤ fuel + 2 →
    sanitizeHistory (truncateLoop fuel s limit) = truncateLoop fuel s limit ∧
    ((stringifyHistory (truncateLoop fuel s limit)).length ≤ limit ∨
      (truncateLoop fuel s limit).length ≤ 2) ∧
    (truncateLoop fuel s limit).Sublist s := by
  intro fuel
  induction fuel with
  | zero =>
    intro s limit hwf hfix hlen
    exact ⟨hfix, Or.inr (by simpa using hlen), List.Sublist.refl s⟩
  | succ fuel ih =>
    intro s limit hwf hfix hlen
    have hred : truncateLoop (fuel + 1) s limit =
        if (stringifyHistory s).length > limit ∧ s.length > 2 then
          truncateLoop fuel (sanitizeHistory (dropLeadingNonUser (s.drop 1))) limit
        else s := rfl
    rw [hred]
    by_cases hc : (stringifyHistory s).length > limit ∧ s.length > 2
    · rw [if_pos hc]
      have hsub1 : (dropLeadingNonUser (s.drop 1)).Sublist s :=
        (List.dropWhile_sublist _).trans (List.drop_sublist 1 s)
      have hsubs : (sanitizeHistory (dropLeadingNonUser (s.drop 1))).Sublist s :=
        (sanitizeHistory_sublist _).trans hsub1
      have hwf1 : ∀ e ∈ dropLeadingNonUser (s.drop 1), wfEntry e = true :=
        fun e he => hwf e (hsub1.subset he)
      have hwf2 : ∀ e ∈ sanitizeHistory (dropLeadingNonUser (s.drop 1)), wfEntry e = true :=
        fun e he => hwf e (hsubs.subset he)
      have hfix2 : sanitizeHistory (sanitizeHistory (dropLeadingNonUser (s.drop 1))) =
          sanitizeHistory (dropLeadingNonUser (s.drop 1)) :=
        sanitizeHistory_idem _ hwf1
      have hlen2 : (sanitizeHistory (dropLeadingNonUser (s.drop 1))).length ≤ fuel + 2 := by
        have h1 : (sanitizeHistory (dropLeadingNonUser (s.drop 1))).length ≤
            (dropLeadingNonUser (s.drop 1)).length :=
          (sanitizeHistory_sublist _).length_le
        have h2 : (dropLeadingNonUser (s.drop 1)).length ≤ (s.drop 1).length :=
          (List.dropWhile_sublist _).length_le
        have h3 : (s.drop 1).length = s.length - 1 := by simp
        have h4 := hc.2
        omega
      obtain ⟨a, b, c⟩ := ih (sanitizeHistory (dropLeadingNonUser (s.drop 1))) limit
        hwf2 hfix2 hlen2
      exact ⟨a, b, c.trans hsubs⟩
    · rw [if_neg hc]
      refine ⟨hfix, ?_, List.Sublist.refl s⟩
      by_cases hsz : (stringifyHistory s).length ≤ limit
      · exact Or.inl hsz
      · refine Or.inr ?_
        by_contra hl2
        exact hc ⟨by omega, by omega⟩

set_option maxRecDepth 40000 in
/-- Counterexample to C7 as stated: for the three-entry history
`[exU0, exA1, exUr]` and the generous budget 1000000 (no size pressure at
all), `truncateHistory` first sanitizes (a no-op here) and then injects a
synthetic tool-call entry for the orphaned result id `b`; the injected
four-entry result is NOT mapped to itself by `sanitizeHistory`, which
drops `exA1` (now followed by the synthetic assistant entry instead of a
tool-result turn) and returns a three-entry list. -/
theorem claim_C7_counterexample :
    truncateHistory [exU0, exA1, exUr] 1000000 =
      [exU0, exA1,
       syntheticToolCallEntry [⟨[⟨s2l "ok"⟩], s2l "success", s2l "b"⟩], exUr] ∧
    (stringifyHistory (truncateHistory [exU0, exA1, exUr] 1000000)).length ≤ 1000000 ∧
    (truncateHistory [exU0, exA1, exUr] 1000000).length = 4 ∧
    (sanitizeHistory (truncateHistory [exU0, exA1, exUr] 1000000)).length = 3 ∧
    sanitizeHistory (truncateHistory [exU0, exA1, exUr] 1000000) ≠
      truncateHistory [exU0, exA1, exUr] 1000000 := by
  refine ⟨rfl, by decide, rfl, rfl, ?_⟩
  intro he
  have h4 : (truncateHistory [exU0, exA1, exUr] 1000000).length = 4 := rfl
  have h3 : (sanitizeHistory (truncateHistory [exU0, exA1, exUr] 1000000)).length = 3 := rfl
  rw [he, h4] at h3
  exact absurd h3 (by decide)

/-- C7 (amended: the sanitize-fixpoint and the two-entry floor hold for the
list BEFORE synthetic tool-call injection, which runs after the size loop
and can add entries and break the fixpoint): `truncateHistory` is the
injection applied to a list `S` that sanitize maps to itself, that either
fits the byte budget or has at most two entries, and that is a subsequence
of the sanitized input (entries are only removed from the front). -/
theorem claim_C7_truncate (h : List KiroHistoryEntry) (limit : ℕ)
    (hwf : ∀ e ∈ h, wfEntry e = true) :
    ∃ S, truncateHistory h limit = injectSyntheticToolCalls S ∧
      sanitizeHistory S = S ∧
      ((stringifyHistory S).length ≤ limit ∨ S.length ≤ 2) ∧
      S.Sublist (sanitizeHistory h) := by
  refine ⟨truncateLoop (sanitizeHistory h).length (sanitizeHistory h) limit, rfl, ?_⟩
  have hwf0 : ∀ e ∈ sanitizeHistory h, wfEntry e = true :=
    fun e he => hwf e ((sanitizeHistory_sublist h).subset he)
  exact truncateLoop_spec (sanitizeHistory h).length (sanitizeHistory h) limit
    hwf0 (sanitizeHistory_idem h hwf) (by omega)

/-- Witness for C7 at a concrete history and budget. -/
theorem claim_C7_witness :
    (∀ e ∈ [exU0, exA1, exUr], wfEntry e = true) ∧
    (∃ S, truncateHistory [exU0, exA1, exUr] 10 = injectSyntheticToolCalls S ∧
      sanitizeHistory S = S ∧
      ((stringifyHistory S).length ≤ 10 ∨ S.length ≤ 2) ∧
      S.Sublist (sanitizeHistory [exU0, exA1, exUr])) :=
  ⟨by decide, claim_C7_truncate [exU0, exA1, exUr] 10 (by decide)⟩

/-! ## Message transformation (`stream.ts` transform section) -/

/-- A content block of a pi message (`TextContent` / `ThinkingContent` /
`ImageContent` / `ToolCall`).  The source parses string-typed tool-call
arguments with `JSON.parse` before storing them; we embed the parsed
value (a throwing parse aborts the request before any history exists). -/
inductive ContentBlock
  | text (t : Str)
  | thinking (t : Str)
  | image (mimeType data : Str)
  | toolCall (id name : Str) (input : JsVal)

/-- A message content field: a plain string or an array of blocks. -/
inductive MsgContent
  | str (s : Str)
  | blocks (bs : List ContentBlock)

/-- `Message`: user / assistant (with `stopReason`) / toolResult (with
`toolCallId` and `isError`). -/
inductive Message
  | user (content : MsgContent)
  | assistant (content : MsgContent) (stopReason : Option Str)
  | toolResult (content : List ContentBlock) (toolCallId : Str) (isError : Bool)

/-- `sanitizeSurrogates` (stream.ts line 406): replace every UTF-16
surrogate code unit by U+FFFD (a Lean `Char` is never a lone surrogate, so
this is the identity here, kept for shape fidelity). -/
def sanitizeSurrogates (text : Str) : Str :=
  text.map (fun c =>
    if 0xD800 ≤ c.toNat ∧ c.toNat ≤ 0xDFFF then Char.ofNat 0xFFFD else c)

/-- `truncate` (stream.ts lines 410-414); `half` is
`Math.floor(limit / 2)` and the two `substring`s clamp at the ends, which
`Int.toNat` reproduces.  All limits the code passes are nonnegative. -/
def truncate (text : Str) (limit : ℤ) : Str :=
  if (text.length : ℤ) ≤ limit then text
  else
    let half := limit / 2
    text.take half.toNat ++ s2l "\n... [TRUNCATED] ...\n" ++
      text.drop (((text.length : ℤ) - half).toNat)

/-- The filter predicate of `normalizeMessages` (stream.ts lines 417-421):
keep everything except assistant messages whose stopReason is `error` or
`aborted`. -/
def keepMsg : Message → Bool
  | Message.assistant _ stopReason =>
    ¬ (stopReason = some (s2l "error")) && ¬ (stopReason = some (s2l "aborted"))
  | _ => true

/-- `normalizeMessages` (stream.ts lines 416-422). -/
def normalizeMessages (messages : List Message) : List Message :=
  messages.filter keepMsg

def cbText : ContentBlock → Str
  | ContentBlock.text t => t
  | ContentBlock.thinking t => t
  | _ => []

/-- `getContentText` (stream.ts lines 430-443); `join("")` is `flatten`. -/
def getContentText : Message → Str
  | Message.toolResult c _ _ =>
    (c.map (fun b => match b with | ContentBlock.text t => t | _ => [])).flatten
  | Message.user (MsgContent.str s) => s
  | Message.user (MsgContent.blocks bs) => (bs.map cbText).flatten
  | Message.assistant (MsgContent.str s) _ => s
  | Message.assistant (MsgContent.blocks bs) _ => (bs.map cbText).flatten

/-- `extractImages` (stream.ts lines 424-428), as (mimeType, data) pairs. -/
def extractImages : Message → List (Str × Str)
  | Message.toolResult _ _ _ => []
  | Message.user (MsgContent.str _) => []
  | Message.user (MsgContent.blocks bs) =>
    bs.filterMap (fun b => match b with
      | ContentBlock.image m d => some (m, d)
      | _ => none)
  | Message.assistant (MsgContent.str _) _ => []
  | Message.assistant (MsgContent.blocks bs) _ =>
    bs.filterMap (fun b => match b with
      | ContentBlock.image m d => some (m, d)
      | _ => none)

/-- `img.mimeType.split("/")[1] || "png"`. -/
def mimeSubtype (m : Str) : Str :=
  match (List.splitOn '/' m)[1]? with
  | some p => if p.isEmpty then s2l "png" else p
  | none => s2l "png"

/-- `convertImagesToKiro` (stream.ts lines 455-457). -/
def convertImagesToKiro (images : List (Str × Str)) : List KiroImage :=
  images.map (fun img => ⟨mimeSubtype img.1, img.2⟩)

/-- `messages[i]?.role === "toolResult"`. -/
def isToolResultAt (messages : List Message) (i : ℕ) : Bool :=
  match messages[i]? with
  | some (Message.toolResult _ _ _) => true
  | _ => false

def isToolResultMsg : Message → Bool
  | Message.toolResult _ _ _ => true
  | _ => false

def isToolCallBlock : ContentBlock → Bool
  | ContentBlock.toolCall _ _ _ => true
  | _ => false

/-- The walk-back loop
`while (idx > 0 && messages[idx].role === "toolResult") idx--`. -/
def walkBack (messages : List Message) : ℕ → ℕ
  | 0 => 0
  | i + 1 => if isToolResultAt messages (i + 1) then walkBack messages i else i + 1

/-- The bump condition of stream.ts lines 471-474: the entry at `i` is an
assistant message whose content is not an array or has no toolCall block. -/
def assistantNoToolCallAt (messages : List Message) (i : ℕ) : Bool :=
  match messages[i]? with
  | some (Message.assistant (MsgContent.str _) _) => true
  | some (Message.assistant (MsgContent.blocks bs) _) => ¬ bs.any isToolCallBlock
  | _ => false

/-- `currentMsgStartIdx` (stream.ts lines 469-474); −1 only for an empty
message list. -/
def currentMsgStartIdx (messages : List Message) : ℤ :=
  match messages.length with
  | 0 => -1
  | n + 1 =>
    let idx := walkBack messages n
    if assistantNoToolCallAt messages idx then (idx : ℤ) + 1 else (idx : ℤ)

/-- `messages.slice(0, currentMsgStartIdx)`. -/
def historyMessages (messages : List Message) : List Message :=
  messages.take (currentMsgStartIdx messages).toNat

/-- The assistant-content loop of stream.ts lines 499-513: text appends,
thinking wraps-and-prepends, toolCall accumulates. -/
def armFold (blocks : List ContentBlock) : Str × List KiroToolUse :=
  blocks.foldl (fun acc b =>
    match b with
    | ContentBlock.text t => (acc.1 ++ t, acc.2)
    | ContentBlock.thinking t =>
      (s2l "<thinking>" ++ t ++ s2l "</thinking>\n\n" ++ acc.1, acc.2)
    | ContentBlock.image _ _ => acc
    | ContentBlock.toolCall id name input => (acc.1, acc.2 ++ [⟨name, id, input⟩]))
    ([], [])

/-- Truthiness of `history[history.length - 1]?.userInputMessage`. -/
def lastIsUser (history : List KiroHistoryEntry) : Bool :=
  match history.getLast? with
  | some e => e.userInputMessage.isSome
  | none => false

/-- The separator entry `{ assistantResponseMessage: { content: "Continue" } }`. -/
def continueEntry : KiroHistoryEntry :=
  ⟨none, some ⟨s2l "Continue", none⟩⟩

/-- Truthiness of the optional `systemPrompt` string. -/
def sysTruthy : Option Str → Bool
  | some sp => ¬ sp.isEmpty
  | none => false

def trOfMsg (limit : ℤ) : Message → KiroToolResult
  | Message.toolResult c id err =>
    ⟨[⟨truncate (getContentText (Message.toolResult c id err)) limit⟩],
     (if err then s2l "error" else s2l "success"), id⟩
  | _ => ⟨[], [], []⟩

/-- The body of the `for` loop of `buildHistory` (stream.ts lines
478-548), one step per produced entry; the fuel is larger than the message
count, and a toolResult run is consumed in one step (the inner `while` of
lines 526-535). -/
def buildGo (modelId : Str) (systemPrompt : Option Str) (toolResultLimit : ℤ) :
    ℕ → List Message → Bool → List KiroHistoryEntry → List KiroHistoryEntry
  | 0, _, _, history => history
  | _ + 1, [], _, history => history
  | fuel + 1, msg :: rest, systemPrepended, history =>
    match msg with
    | Message.user content =>
      let baseContent := match content with
        | MsgContent.str s => s
        | MsgContent.blocks _ => getContentText (Message.user content)
      let content1 :=
        if sysTruthy systemPrompt && !systemPrepended then
          systemPrompt.getD [] ++ s2l "\n\n" ++ baseContent
        else baseContent
      let prepended1 := systemPrepended || sysTruthy systemPrompt
      let images := extractImages (Message.user content)
      let uim : KiroUserInputMessage :=
        ⟨sanitizeSurrogates content1, modelId,
         (if images.length > 0 then some (convertImagesToKiro images) else none), none⟩
      let history1 := if lastIsUser history then history ++ [continueEntry] else history
      buildGo modelId systemPrompt toolResultLimit fuel rest prepended1
        (history1 ++ [⟨some uim, none⟩])
    | Message.assistant content _ =>
      let acc := match content with
        | MsgContent.str _ => (([] : Str), ([] : List KiroToolUse))
        | MsgContent.blocks bs => armFold bs
      if acc.1.isEmpty && acc.2.isEmpty then
        buildGo modelId systemPrompt toolResultLimit fuel rest systemPrepended history
      else
        buildGo modelId systemPrompt toolResultLimit fuel rest systemPrepended
          (history ++ [⟨none, some ⟨acc.1,
            if acc.2.length > 0 then some acc.2 else none⟩⟩])
    | Message.toolResult c id err =>
      let run := rest.takeWhile isToolResultMsg
      let rest2 := rest.dropWhile isToolResultMsg
      let toolResults :=
        trOfMsg toolResultLimit (Message.toolResult c id err) :: run.map (trOfMsg toolResultLimit)
      let history1 := if lastIsUser history then history ++ [continueEntry] else history
      buildGo modelId systemPrompt toolResultLimit fuel rest2 systemPrepended
        (history1 ++ [⟨some ⟨s2l "Tool results provided.", modelId, none,
          some ⟨some toolResults, none⟩⟩, none⟩])

/-- The `history` component of `buildHistory` (stream.ts lines 459-550);
`toolResultLimit = Math.floor(TOOL_RESULT_LIMIT * reductionFactor)`. -/
def buildHistory (messages : List Message) (modelId : Str)
    (systemPrompt : Option Str) (reductionFactor : ℚ) : List KiroHistoryEntry :=
  let toolResultLimit : ℤ := Int.floor ((250000 : ℚ) * reductionFactor)
  let hm := historyMessages messages
  buildGo modelId systemPrompt toolResultLimit (hm.length + 1) hm false []

/-- No two adjacent entries are both user turns. -/
def noAdjUsers : List KiroHistoryEntry → Bool
  | [] => true
  | [_] => true
  | a :: b :: r =>
    (¬ (a.userInputMessage.isSome ∧ b.userInputMessage.isSome)) && noAdjUsers (b :: r)

/-- No two adjacent entries are both assistant turns. -/
def noAdjAssistants : List KiroHistoryEntry → Bool
  | [] => true
  | [_] => true
  | a :: b :: r =>
    (¬ (a.assistantResponseMessage.isSome ∧ b.assistantResponseMessage.isSome)) &&
      noAdjAssistants (b :: r)

theorem lastIsUser_concat (h : List KiroHistoryEntry) (e : KiroHistoryEntry) :
    lastIsUser (h ++ [e]) = e.userInputMessage.isSome := by
  rw [lastIsUser, List.getLast?_concat]

/-- Appending an entry keeps `noAdjUsers` when the current last entry is
not a user turn or the new entry is not a user turn. -/
theorem noAdjUsers_concat : ∀ (h : List KiroHistoryEntry) (e : KiroHistoryEntry),
    noAdjUsers h = true →
    (lastIsUser h = false ∨ e.userInputMessage.isSome = false) →
    noAdjUsers (h ++ [e]) = true := by
  intro h
  induction h with
  | nil => intro e _ _; rfl
  | cons a t ih =>
    intro e hh he
    cases t with
    | nil =>
      rcases he with he | he
      · rw [lastIsUser] at he
        simp only [List.getLast?_singleton] at he
        simp [noAdjUsers, he]
      · simp [noAdjUsers, he]
    | cons b r =>
      rw [noAdjUsers, Bool.and_eq_true] at hh
      obtain ⟨h1, h2⟩ := hh
      have he2 : lastIsUser (b :: r) = false ∨ e.userInputMessage.isSome = false := by
        rcases he with he | he
        · left
          rw [lastIsUser] at he ⊢
          rwa [List.getLast?_cons_cons] at he
        · right; exact he
      have h3 := ih e h2 he2
      show noAdjUsers (a :: b :: (r ++ [e])) = true
      rw [noAdjUsers, Bool.and_eq_true]
      exact ⟨h1, h3⟩

/-- Pushing any entry after the conditional "Continue" separator keeps
`noAdjUsers`: after the separator check the last entry is never a user
turn. -/
theorem sepPush_ok (history : List KiroHistoryEntry) (e : KiroHistoryEntry)
    (hh : noAdjUsers history = true) :
    noAdjUsers ((if lastIsUser history then history ++ [continueEntry]
      else history) ++ [e]) = true := by
  by_cases hl : lastIsUser history = true
  · rw [if_pos hl]
    refine noAdjUsers_concat _ e ?_ ?_
    · exact noAdjUsers_concat history continueEntry hh (Or.inr rfl)
    · left
      rw [lastIsUser_concat]
      rfl
  · rw [if_neg hl]
    exact noAdjUsers_concat history e hh (Or.inl (by simpa using hl))

/-- The loop of `buildHistory` preserves `noAdjUsers`: user-side pushes go
through the separator check, assistant pushes are never user turns. -/
theorem buildGo_noAdjUsers (modelId : Str) (sp : Option Str) (limit : ℤ) :
    ∀ (fuel : ℕ) (msgs : List Message) (p : Bool)
      (history : List KiroHistoryEntry), noAdjUsers history = true →
      noAdjUsers (buildGo modelId sp limit fuel msgs p history) = true := by
  intro fuel
  induction fuel with
  | zero => intro msgs p history hh; exact hh
  | succ fuel ih =>
    intro msgs p history hh
    cases msgs with
    | nil => exact hh
    | cons msg rest =>
      cases msg with
      | user content =>
        simp only [buildGo]
        exact ih _ _ _ (sepPush_ok history _ hh)
      | assistant content stopReason =>
        simp only [buildGo]
        split
        · exact ih rest p history hh
        · exact ih _ _ _ (noAdjUsers_concat history _ hh (Or.inr rfl))
      | toolResult c id err =>
        simp only [buildGo]
        exact ih _ _ _ (sepPush_ok history _ hh)

/-- Counterexample to C8 as stated: two consecutive assistant messages with
block content both enter the history with no "Continue" separator between
them (the separator is inserted only before user-side pushes), so the
produced history has two adjacent assistant turns. -/
theorem claim_C8_counterexample :
    buildHistory
      [Message.user (MsgContent.str (s2l "a")),
       Message.assistant (MsgContent.blocks [ContentBlock.text (s2l "x")]) none,
       Message.assistant (MsgContent.blocks [ContentBlock.text (s2l "y")]) none,
       Message.user (MsgContent.str (s2l "b"))] (s2l "m") none 1 =
      [⟨some ⟨s2l "a", s2l "m", none, none⟩, none⟩,
       ⟨none, some ⟨s2l "x", none⟩⟩,
       ⟨none, some ⟨s2l "y", none⟩⟩] ∧
    noAdjAssistants
      (buildHistory
        [Message.user (MsgContent.str (s2l "a")),
         Message.assistant (MsgContent.blocks [ContentBlock.text (s2l "x")]) none,
         Message.assistant (MsgContent.blocks [ContentBlock.text (s2l "y")]) none,
         Message.user (MsgContent.str (s2l "b"))] (s2l "m") none 1) = false :=
  ⟨rfl, by decide⟩

/-- C8 (amended: only user-side adjacency is prevented — the "Continue"
separator is inserted exclusively before user-side pushes, and consecutive
assistant turns are emitted adjacently): the history produced by
`buildHistory` never contains two adjacent user turns, for every message
list, model id, system prompt and reduction factor. -/
theorem claim_C8_no_adjacent_users (messages : List Message) (modelId : Str)
    (systemPrompt : Option Str) (reductionFactor : ℚ) :
    noAdjUsers (buildHistory messages modelId systemPrompt reductionFactor) = true :=
  buildGo_noAdjUsers modelId systemPrompt _ _ _ false [] rfl

/-! ## The stream read loop and usage accounting (stream.ts lines 242-347) -/

/-- `KiroToolCallState`. -/
structure KiroToolCallState where
  toolUseId : Str
  name : Str
  input : Str
deriving DecidableEq

/-- The mutable locals of the read loop: `buffer`, `totalContent`, the
optional `ThinkingTagParser`, `output.content` with the event log,
`textBlockIndex`, `toolCalls`, `currentToolCall`, `output.usage.input` and
the per-batch `streamComplete` flag. -/
structure RunState where
  buffer : Str
  totalContent : Str
  tp : Option TPState
  so : SOut
  textBlockIndex : Option ℕ
  toolCalls : List KiroToolCallState
  currentToolCall : Option KiroToolCallState
  usageInput : ℤ
  streamComplete : Bool

/-- `Math.round`: floor of x + 1/2. -/
def jsRound (q : ℚ) : ℤ := ⌊q + 1 / 2⌋

def runInit (thinkingEnabled : Bool) : RunState :=
  ⟨[], [], (if thinkingEnabled then some tpInit else none), ⟨[], [EvKind.startEv]⟩,
   none, [], none, 0, false⟩

/-- The body of `for (const event of events)` (stream.ts lines 270-307). -/
def processOneEvent (W : ℚ) (st : RunState) : KiroStreamEvent → RunState
  | KiroStreamEvent.contextUsage pct =>
    { st with usageInput := jsRound ((pct / 100) * W), streamComplete := true }
  | KiroStreamEvent.content data =>
    let st1 := { st with totalContent := st.totalContent ++ data }
    match st1.tp with
    | some tp =>
      let r := processChunk tp st1.so data
      { st1 with tp := some r.1, so := r.2 }
    | none =>
      match st1.textBlockIndex with
      | none =>
        let idx := st1.so.content.length
        let so2 : SOut := ⟨st1.so.content ++ [OutBlock.text []],
          st1.so.log ++ [EvKind.text_start]⟩
        { st1 with
          textBlockIndex := some idx,
          so := ⟨appendTextAt so2.content idx data,
            so2.log ++ [EvKind.text_delta data]⟩ }
      | some idx =>
        { st1 with so := ⟨appendTextAt st1.so.content idx data,
            st1.so.log ++ [EvKind.text_delta data]⟩ }
  | KiroStreamEvent.toolUse name toolUseId input stop =>
    let st1 :=
      match st.currentToolCall with
      | some cur =>
        if cur.toolUseId = toolUseId then
          { st with currentToolCall := some { cur with input := cur.input ++ input } }
        else
          { st with
            toolCalls := st.toolCalls ++ [cur],
            currentToolCall := some ⟨toolUseId, name, input⟩ }
      | none => { st with currentToolCall := some ⟨toolUseId, name, input⟩ }
    if stop then
      match st1.currentToolCall with
      | some cur =>
        { st1 with toolCalls := st1.toolCalls ++ [cur], currentToolCall := none }
      | none => st1
    else st1
  | KiroStreamEvent.toolUseInput input =>
    match st.currentToolCall with
    | some cur =>
      { st with currentToolCall := some { cur with input := cur.input ++ input } }
    | none => st
  | KiroStreamEvent.toolUseStop stop =>
    if stop then
      match st.currentToolCall with
      | some cur =>
        { st with toolCalls := st.toolCalls ++ [cur], currentToolCall := none }
      | none => st
    else st

/-- One `reader.read()` round (stream.ts lines 263-307): decode, parse the
buffer, keep the remainder and fold the whole event batch. -/
def processBatch (W : ℚ) (st : RunState) (chunk : Str) : RunState :=
  let r := parseKiroEvents (st.buffer ++ chunk)
  r.events.foldl (processOneEvent W) { st with buffer := r.remaining }

/-- The `while (true)` read loop: each delivered chunk is one batch; the
per-iteration `streamComplete` local starts false and a true value after a
batch breaks the loop (stream.ts lines 262-309). -/
def runGo (W : ℚ) : List Str → RunState → RunState
  | [], st => st
  | chunk :: rest, st =>
    let st1 := processBatch W { st with streamComplete := false } chunk
    if st1.streamComplete then st1 else runGo W rest st1

def pushToolCallBlock (acc : RunState) (tc : KiroToolCallState) : RunState :=
  { acc with so := ⟨acc.so.content ++ [OutBlock.toolCall tc.toolUseId tc.name tc.input],
      acc.so.log ++ [EvKind.toolcall_start, EvKind.toolcall_delta tc.input,
        EvKind.toolcall_end]⟩ }

/-- Post-loop assembly (stream.ts lines 310-334): flush the pending tool
call, finalize the thinking parser (adopting its text block index), emit
`text_end`, and append the tool-call blocks. -/
def finishStream (st : RunState) : RunState :=
  let st1 := match st.currentToolCall with
    | some cur => { st with toolCalls := st.toolCalls ++ [cur], currentToolCall := none }
    | none => st
  let st2 := match st1.tp with
    | some tp =>
      let r := tpFinalize tp st1.so
      { st1 with tp := some r.1, so := r.2, textBlockIndex := r.1.textBlockIndex }
    | none => st1
  let st3 := match st2.textBlockIndex with
    | some idx => { st2 with so := ⟨st2.so.content,
        st2.so.log ++ [EvKind.text_end (getTextAt st2.so.content idx)]⟩ }
    | none => st2
  st3.toolCalls.foldl pushToolCallBlock st3

/-- The observable parts of the `done` message (stream.ts lines 335-346):
content blocks, event log, `usage.input`, `usage.output` and the stop
reason. -/
structure DoneMsg where
  content : List OutBlock
  log : List EvKind
  usageInput : ℤ
  usageOutput : ℕ
  stopReason : Str

/-- One successful pass of the response-consuming part of `streamKiro`:
read all chunks, assemble, and account usage;
`outTok = Math.ceil(totalContent.length / 4)`. -/
def streamKiroRun (W : ℚ) (thinkingEnabled : Bool) (chunks : List Str) : DoneMsg :=
  let st := finishStream (runGo W chunks (runInit thinkingEnabled))
  let outTok := (st.totalContent.length + 3) / 4
  ⟨st.so.content, st.so.log ++ [EvKind.doneEv], st.usageInput, outTok,
   (if st.toolCalls.length > 0 then s2l "toolUse" else s2l "stop")⟩

/-- The content payload an event contributes to `totalContent`. -/
def contentData : KiroStreamEvent → Str
  | KiroStreamEvent.content d => d
  | _ => []

theorem pushTC_totalContent : ∀ (l : List KiroToolCallState) (st : RunState),
    (List.foldl pushToolCallBlock st l).totalContent = st.totalContent := by
  intro l
  induction l with
  | nil => intro st; rfl
  | cons a t ih => intro st; rw [List.foldl_cons, ih]; rfl

theorem finishStream_totalContent (st : RunState) :
    (finishStream st).totalContent = st.totalContent := by
  simp only [finishStream]
  rw [pushTC_totalContent]
  repeat' split
  all_goals rfl

/-- Every event grows `totalContent` by exactly its content payload: a
`content` event appends its (possibly thinking-bearing) data, all others
leave it unchanged. -/
theorem processOneEvent_totalContent (W : ℚ) (st : RunState) (ev : KiroStreamEvent) :
    (processOneEvent W st ev).totalContent = st.totalContent ++ contentData ev := by
  cases ev <;> simp only [processOneEvent, contentData] <;> (repeat' split) <;> simp

theorem foldl_events_totalContent (W : ℚ) : ∀ (evs : List KiroStreamEvent) (st : RunState),
    (evs.foldl (processOneEvent W) st).totalContent =
      st.totalContent ++ (evs.map contentData).flatten := by
  intro evs
  induction evs with
  | nil => intro st; simp
  | cons e t ih =>
    intro st
    rw [List.foldl_cons, ih, processOneEvent_totalContent]
    simp

theorem streamKiroRun_output (W : ℚ) (th : Bool) (chunks : List Str) :
    (streamKiroRun W th chunks).usageOutput =
      ((runGo W chunks (runInit th)).totalContent.length + 3) / 4 := by
  simp only [streamKiroRun]
  rw [finishStream_totalContent]

/-- Scenario A response bytes. -/
def chunkScenarioA : Str := s2l "\x7b\"content\":\"Hi\"\x7d\x7b\"contextUsagePercentage\":10\x7d"

/-- A thinking-bearing content event. -/
def chunkThinkA : Str := s2l "\x7b\"content\":\"<thinking>XXXX</thinking>\\n\\nABCD\"\x7d"

/-- A context-usage event closing the stream. -/
def chunkUsageB : Str := s2l "\x7b\"contextUsagePercentage\":10\x7d"

/-- Counterexample to C9 as stated: on a thinking-enabled stream whose
content is `<thinking>XXXX</thinking>\n\nABCD`, the answer text is `ABCD`
(4 characters, so the claimed answer-length/4 gives 1 output token), but
the code divides the length of `totalContent` — which also counts the
thinking text and its markers (31 characters) — and reports 8. -/
theorem claim_C9_counterexample :
    answerText ⟨(streamKiroRun 200000 true [chunkThinkA, chunkUsageB]).content, []⟩ =
      s2l "ABCD" ∧
    (s2l "ABCD").length = 4 ∧
    thinkingText ⟨(streamKiroRun 200000 true [chunkThinkA, chunkUsageB]).content, []⟩ =
      s2l "XXXX" ∧
    (streamKiroRun 200000 true [chunkThinkA, chunkUsageB]).usageOutput = 8 ∧
    (streamKiroRun 200000 true [chunkThinkA, chunkUsageB]).usageOutput ≠ 4 / 4 := by
  decide

/-- The usage percentage parsed out of the Scenario A bytes. -/
def pctA : ℚ :=
  match (parseKiroEvents chunkScenarioA).events[1]? with
  | some (KiroStreamEvent.contextUsage p) => p
  | _ => 0

theorem pctA_eq : pctA = 10 := by
  have h : pctA = ((10 : ℕ) : ℚ) + 0 := rfl
  rw [h]
  norm_num

theorem scenarioA_input :
    (streamKiroRun 200000 false [chunkScenarioA]).usageInput = 20000 := by
  have h1 : (streamKiroRun 200000 false [chunkScenarioA]).usageInput =
      jsRound ((pctA / 100) * 200000) := rfl
  rw [h1, pctA_eq]
  norm_num [jsRound]

/-- C9 (amended: output tokens are `ceil(totalContent.length / 4)` where
`totalContent` accumulates every streamed content payload, including
thinking text and its markers, not only the answer characters): a
context-usage event sets input usage to `round(pct / 100 × contextWindow)`
and completes the stream; `totalContent` grows by exactly each event's
content payload; the done message's output usage is
`ceil(totalContent.length / 4)`; and for the Scenario A bytes with context
window 200000 the done message reports input usage 20000 (and output 1). -/
theorem claim_C9_usage_accounting :
    (∀ (W : ℚ) (st : RunState) (pct : ℚ),
      (processOneEvent W st (KiroStreamEvent.contextUsage pct)).usageInput =
        jsRound ((pct / 100) * W) ∧
      (processOneEvent W st (KiroStreamEvent.contextUsage pct)).streamComplete = true) ∧
    (∀ (W : ℚ) (st : RunState) (ev : KiroStreamEvent),
      (processOneEvent W st ev).totalContent = st.totalContent ++ contentData ev) ∧
    (∀ (W : ℚ) (th : Bool) (chunks : List Str),
      (streamKiroRun W th chunks).usageOutput =
        ((runGo W chunks (runInit th)).totalContent.length + 3) / 4) ∧
    (streamKiroRun 200000 false [chunkScenarioA]).usageInput = 20000 ∧
    (streamKiroRun 200000 false [chunkScenarioA]).usageOutput = 1 :=
  ⟨fun W st pct => ⟨rfl, rfl⟩,
   fun W st ev => processOneEvent_totalContent W st ev,
   fun W th chunks => streamKiroRun_output W th chunks,
   scenarioA_input, by decide⟩

/-! ## The send/retry orchestration (stream.ts lines 94-240) -/

/-- One transport response: `ok`, `status`, `statusText`, the error body
text read on failure, and the streamed chunks on success. -/
structure Resp where
  ok : Bool
  status : ℕ
  statusText : Str
  bodyText : Str
  chunks : List Str

/-- The "too large" body test (stream.ts lines 231-234). -/
def isTooBig (body : Str) : Bool :=
  containsSub body (s2l "CONTENT_LENGTH_EXCEEDS_THRESHOLD") ||
  containsSub body (s2l "Input is too long") ||
  containsSub body (s2l "Improperly formed")

/-- The size-rejection class of stream.ts line 235:
`status === 413 || (status === 400 && isTooBig)`. -/
def retryClass (r : Resp) : Bool :=
  r.status == 413 || (r.status == 400 && isTooBig r.bodyText)

/-- `Kiro API error: ${status} ${statusText} ${errText}` (line 240). -/
def kiroErrMsg (r : Resp) : Str :=
  s2l "Kiro API error: " ++ natDigits r.status ++ s2l " " ++ r.statusText ++
    s2l " " ++ r.bodyText

/-- The outcome pushed on the stream: a `done` message or, via the catch
handler (lines 349-354), an `error` event with reason and message. -/
inductive KiroOutcome
  | done (msg : DoneMsg)
  | errorEv (reason message : Str)
  | outOfResponses

/-- The retry loop (stream.ts lines 94-240): each attempt consumes one
response; a size-class rejection with retries left bumps `retryCount` and
multiplies `reductionFactor` by 0.7; any other rejection throws, which the
catch handler turns into an error event with reason `"error"`.  The second
component records the reduction factor of every performed attempt. -/
def kiroLoopGo (W : ℚ) (th : Bool) : List Resp → ℕ → ℚ → KiroOutcome × List ℚ
  | [], _, _ => (KiroOutcome.outOfResponses, [])
  | r :: rest, retryCount, rf =>
    if r.ok then
      (KiroOutcome.done (streamKiroRun W th r.chunks), [rf])
    else if retryClass r = true ∧ retryCount < 3 then
      let res := kiroLoopGo W th rest (retryCount + 1) (rf * (7 / 10))
      (res.1, rf :: res.2)
    else
      (KiroOutcome.errorEv (s2l "error") (kiroErrMsg r), [rf])

def streamKiroLoop (W : ℚ) (th : Bool) (resps : List Resp) : KiroOutcome × List ℚ :=
  kiroLoopGo W th resps 0 1

/-- C5: four consecutive size-class rejections exhaust the 3 retries —
exactly 4 attempts with reduction factors 1, 0.7, 0.49, 0.343 — and end in
a single error event with reason "error" carrying the last response's
status and body; a first rejection outside the size class ends after
exactly 1 attempt with an error event preserving its status and body. -/
theorem claim_C5_retry_behavior :
    (∀ (W : ℚ) (th : Bool) (r0 r1 r2 r3 : Resp) (rest : List Resp),
      (r0.ok = false ∧ retryClass r0 = true) ∧
      (r1.ok = false ∧ retryClass r1 = true) ∧
      (r2.ok = false ∧ retryClass r2 = true) ∧
      (r3.ok = false ∧ retryClass r3 = true) →
      streamKiroLoop W th (r0 :: r1 :: r2 :: r3 :: rest) =
        (KiroOutcome.errorEv (s2l "error") (kiroErrMsg r3),
         [1, 7 / 10, 49 / 100, 343 / 1000])) ∧
    (∀ (W : ℚ) (th : Bool) (r : Resp) (rest : List Resp),
      r.ok = false → retryClass r = false →
      streamKiroLoop W th (r :: rest) =
        (KiroOutcome.errorEv (s2l "error") (kiroErrMsg r), [1])) := by
  constructor
  · intro W th r0 r1 r2 r3 rest h
    obtain ⟨⟨h0a, h0b⟩, ⟨h1a, h1b⟩, ⟨h2a, h2b⟩, ⟨h3a, h3b⟩⟩ := h
    simp only [streamKiroLoop, kiroLoopGo, h0a, h0b, h1a, h1b, h2a, h2b, h3a, h3b]
    norm_num
  · intro W th r rest ha hb
    simp only [streamKiroLoop, kiroLoopGo, ha, hb]
    simp

/-- Witness for C5 at concrete 413 and 500 responses. -/
theorem claim_C5_witness :
    ((⟨false, 413, s2l "Payload Too Large",
        s2l "CONTENT_LENGTH_EXCEEDS_THRESHOLD", []⟩ : Resp).ok = false ∧
      retryClass ⟨false, 413, s2l "Payload Too Large",
        s2l "CONTENT_LENGTH_EXCEEDS_THRESHOLD", []⟩ = true) ∧
    streamKiroLoop 1 false
      [⟨false, 413, s2l "Payload Too Large", s2l "CONTENT_LENGTH_EXCEEDS_THRESHOLD", []⟩,
       ⟨false, 413, s2l "Payload Too Large", s2l "CONTENT_LENGTH_EXCEEDS_THRESHOLD", []⟩,
       ⟨false, 413, s2l "Payload Too Large", s2l "CONTENT_LENGTH_EXCEEDS_THRESHOLD", []⟩,
       ⟨false, 413, s2l "Payload Too Large", s2l "CONTENT_LENGTH_EXCEEDS_THRESHOLD", []⟩] =
      (KiroOutcome.errorEv (s2l "error")
        (kiroErrMsg ⟨false, 413, s2l "Payload Too Large",
          s2l "CONTENT_LENGTH_EXCEEDS_THRESHOLD", []⟩),
       [1, 7 / 10, 49 / 100, 343 / 1000]) ∧
    ((⟨false, 500, s2l "Internal Server Error", s2l "boom", []⟩ : Resp).ok = false ∧
      retryClass ⟨false, 500, s2l "Internal Server Error", s2l "boom", []⟩ = false) ∧
    streamKiroLoop 1 false [⟨false, 500, s2l "Internal Server Error", s2l "boom", []⟩] =
      (KiroOutcome.errorEv (s2l "error")
        (kiroErrMsg ⟨false, 500, s2l "Internal Server Error", s2l "boom", []⟩), [1]) :=
  ⟨⟨rfl, by decide⟩,
   claim_C5_retry_behavior.1 1 false _ _ _ _ []
     ⟨⟨rfl, by decide⟩, ⟨rfl, by decide⟩, ⟨rfl, by decide⟩, ⟨rfl, by decide⟩⟩,
   ⟨rfl, by decide⟩,
   claim_C5_retry_behavior.2 1 false _ [] rfl (by decide)⟩

/-! ## Request construction from the normalized messages (C10) -/

/-- `HISTORY_LIMIT` (part_004). -/
def HISTORY_LIMIT : ℕ := 850000

/-- The system-prompt shrink of stream.ts lines 98-105. -/
def effectiveSystemPrompt (systemPrompt : Str) (rf : ℚ) : Str :=
  if rf < 1 then
    let maxSystemLength := (Int.floor ((5000 : ℚ) * rf)).toNat
    if systemPrompt.length > maxSystemLength then
      systemPrompt.take maxSystemLength ++ s2l "\n[System prompt truncated due to length]"
    else systemPrompt
  else systemPrompt

/-- The per-attempt history pipeline of stream.ts lines 98-112: every
attempt normalizes `context.messages` first, builds the history from the
normalized list and truncates it under `Math.floor(HISTORY_LIMIT * rf)`. -/
def attemptHistory (messages : List Message) (modelId : Str)
    (systemPrompt : Str) (rf : ℚ) : List KiroHistoryEntry :=
  truncateHistory
    (buildHistory (normalizeMessages messages) modelId
      (some (effectiveSystemPrompt systemPrompt rf)) rf)
    ((Int.floor ((HISTORY_LIMIT : ℚ) * rf)).toNat)

theorem normalizeMessages_idem (messages : List Message) :
    normalizeMessages (normalizeMessages messages) = normalizeMessages messages := by
  simp [normalizeMessages, List.filter_filter]

/-- C10: `normalizeMessages` keeps a message exactly when it is not an
assistant message with stopReason `error` or `aborted`, preserving order
(a sublist of the input); and the per-attempt history pipeline is
insensitive to pre-normalization, i.e. dropped messages never contribute
to any attempt's history. -/
theorem claim_C10_normalize (messages : List Message) :
    (normalizeMessages messages).Sublist messages ∧
    (∀ m, m ∈ normalizeMessages messages ↔ (m ∈ messages ∧ keepMsg m = true)) ∧
    (∀ c sr, keepMsg (Message.assistant c sr) = false ↔
      (sr = some (s2l "error") ∨ sr = some (s2l "aborted"))) ∧
    (∀ c, keepMsg (Message.user c) = true) ∧
    (∀ c id err, keepMsg (Message.toolResult c id err) = true) ∧
    (∀ (modelId : Str) (systemPrompt : Str) (rf : ℚ),
      attemptHistory (normalizeMessages messages) modelId systemPrompt rf =
        attemptHistory messages modelId systemPrompt rf) := by
  refine ⟨List.filter_sublist _, fun m => List.mem_filter, ?_, fun c => rfl,
    fun c id err => rfl, ?_⟩
  · intro c sr
    constructor
    · intro h
      by_contra hc
      push_neg at hc
      simp [keepMsg, hc.1, hc.2] at h
    · intro h
      rcases h with h | h <;> simp [keepMsg, h]
  · intro modelId systemPrompt rf
    rw [attemptHistory, attemptHistory, normalizeMessages_idem]
